import Mathlib

/-!
Verification development for the LuminateSPS property-site generator
(`src/generator/src/github.js`).

The file shallowly embeds the parts of the program the specification talks
about:

* the `GitHubPublisher` class — `uploadMultipleFiles`, `publishPropertySite`,
  `listPropertySites`, `deletePropertySite` — as pure functions over an
  explicit model of the remote Git object store (blobs, trees, commits,
  refs).  Every remote API call is one step that threads the store state and
  appends one event to an observation trace; a fault flag per call lets a
  theorem quantify over network failures.  Object ids (shas) are abstracted
  to freshly allocated naturals; Git's content-addressing is irrelevant to
  every claim and is not modelled.  Git trees are modelled as flat
  `path ↦ blob` association lists, which is exactly the view the Git Data
  API's `createTree` with `base_tree` plus full-path entries presents.
* the Express route handlers for `POST /api/generate`,
  `GET /api/properties` and `DELETE /api/properties/:slug`, including the
  dynamic-field validation loop (JS truthiness over a JSON value model) and
  the photo-processing loop.
* the slug builder: the route calls the `slugify` npm library with
  options `lower: true, strict: true`; the library itself is not part of the
  repository, so it is modelled from the spec (lowercase, hyphen-separated,
  URL-safe, punctuation stripped) together with the library's documented
  strict-mode semantics (keep `[A-Za-z0-9]` and whitespace, treat the
  replacement character as whitespace, collapse whitespace runs to one
  hyphen, trim, lowercase).
-/

namespace Luminate

/-! ## Association lists (string/nat keyed maps used throughout) -/
/-- First-match lookup in an association list. -/
def assoc {α β : Type} [DecidableEq α] : List (α × β) → α → Option β
  | [], _ => none
  | (k, v) :: rest, key => if k = key then some v else assoc rest key

/-- Replace the binding for `k` (first occurrence) or append it at the end. -/
def setEntry {α β : Type} [DecidableEq α] : List (α × β) → α → β → List (α × β)
  | [], k, v => [(k, v)]
  | (k', v') :: rest, k, v =>
    if k' = k then (k, v) :: rest else (k', v') :: setEntry rest k v

/-- Remove every binding for `k`. -/
def removeEntry {α β : Type} [DecidableEq α] (l : List (α × β)) (k : α) :
    List (α × β) :=
  l.filter (fun e => e.1 ≠ k)

/-- Layer new `(path, sha)` entries on a base map, replacing same-path
entries: the semantics of `createTree` with `base_tree`. -/
def overlay (base : List (String × Nat)) : List (String × Nat) → List (String × Nat)
  | [] => base
  | e :: es => overlay (setEntry base e.1 e.2) es

/-! ## JSON values: the model of the request body

`POST /api/generate` receives an arbitrary JSON body and walks it
dynamically (`value = value?.[part]`), testing JS truthiness (`!value`).
Numbers are modelled as integers (the claims only distinguish zero from
non-zero). -/
inductive Json where
  | null
  | bool (b : Bool)
  | num (n : Int)
  | str (s : String)
  | arr (xs : List Json)
  | obj (fields : List (String × Json))

/-- Object member lookup; anything that is not an object has no members
(the fields the server reads never exist on JS primitives). -/
def jget : Json → String → Option Json
  | .obj fields, k => assoc fields k
  | _, _ => none

/-- The `value = value?.[part]` chain of the validation loop: optional
chaining keeps `undefined`/`null` as `undefined`. -/
def getPath : Option Json → List String → Option Json
  | v, [] => v
  | none, _ :: _ => none
  | some .null, _ :: _ => none
  | some v, p :: ps => getPath (jget v p) ps

/-- JS truthiness of a possibly-undefined value: `undefined`, `null`,
`false`, `0` and `""` are falsy; objects and arrays are truthy. -/
def truthy : Option Json → Bool
  | none => false
  | some .null => false
  | some (.bool b) => b
  | some (.num n) => n ≠ 0
  | some (.str s) => s ≠ ""
  | some (.arr _) => true
  | some (.obj _) => true

/-- JS template-literal stringification of the values the server
interpolates (strings and numbers in practice). -/
def jsToString : Json → String
  | .null => "null"
  | .bool true => "true"
  | .bool false => "false"
  | .num n => toString n
  | .str s => s
  | .arr _ => ""
  | .obj _ => "[object Object]"

/-- Stringify a possibly-undefined value (missing becomes "undefined"). -/
def jstr : Option Json → String
  | none => "undefined"
  | some v => jsToString v

/-! ## The remote Git object store

The state visible through the hosting API: refs (branch name ↦ commit sha),
commits, trees (flat `path ↦ blob sha` maps) and blobs.  `nextSha` allocates
fresh object ids; `trace` records, in order, every API call that completed
on the remote side.  Each primitive corresponds to one `octokit` call in
`src/generator/src/github.js` and takes a fault flag: `true` means the
network call fails (the promise rejects) before anything happens remotely. -/
structure CommitObj where
  tree : Nat
  parents : List Nat
  message : String
deriving DecidableEq

inductive Event where
  | getRefEv (branch : String) (sha : Nat)
  | getCommitEv (sha : Nat) (tree : Nat)
  | createBlobEv (content : String) (sha : Nat)
  | createTreeEv (base : Nat) (entries : List (String × Nat)) (sha : Nat)
  | createCommitEv (tree : Nat) (parent : Nat) (sha : Nat)
  | updateRefEv (branch : String) (sha : Nat)
  | getContentEv (path : String)
  | deleteFileEv (path : String) (ok : Bool)
deriving DecidableEq

structure GitState where
  refs : List (String × Nat)
  commits : List (Nat × CommitObj)
  trees : List (Nat × List (String × Nat))
  blobs : List (Nat × String)
  nextSha : Nat
  trace : List Event
deriving DecidableEq

inductive GitError where
  | notFound
  | apiFailure
deriving DecidableEq

instance {ε α : Type} [DecidableEq ε] [DecidableEq α] :
    DecidableEq (Except ε α)
  | .error e1, .error e2 =>
    if h : e1 = e2 then .isTrue (by rw [h])
    else .isFalse (by intro hc; cases hc; exact h rfl)
  | .error _, .ok _ => .isFalse (by intro hc; cases hc)
  | .ok _, .error _ => .isFalse (by intro hc; cases hc)
  | .ok a1, .ok a2 =>
    if h : a1 = a2 then .isTrue (by rw [h])
    else .isFalse (by intro hc; cases hc; exact h rfl)

/-- The `error.message` surfaced to route handlers. -/
def GitError.message : GitError → String
  | .notFound => "Not Found"
  | .apiFailure => "API failure"

/-- `octokit.rest.git.getRef` on `heads/<branch>`. -/
def getRef (fl : Bool) (branch : String) (st : GitState) :
    Except GitError Nat × GitState :=
  if fl then (.error .apiFailure, st)
  else match assoc st.refs branch with
    | none => (.error .notFound, st)
    | some sha =>
      (.ok sha, { st with trace := st.trace ++ [.getRefEv branch sha] })

/-- `octokit.rest.git.getCommit`: resolve a commit sha to its tree sha. -/
def getCommit (fl : Bool) (sha : Nat) (st : GitState) :
    Except GitError Nat × GitState :=
  if fl then (.error .apiFailure, st)
  else match assoc st.commits sha with
    | none => (.error .notFound, st)
    | some co =>
      (.ok co.tree, { st with trace := st.trace ++ [.getCommitEv sha co.tree] })

/-- `octokit.rest.git.createBlob`: store a payload, returning a fresh sha. -/
def createBlob (fl : Bool) (content : String) (st : GitState) :
    Except GitError Nat × GitState :=
  if fl then (.error .apiFailure, st)
  else
    let sha := st.nextSha
    (.ok sha, { st with blobs := (sha, content) :: st.blobs,
                        nextSha := sha + 1,
                        trace := st.trace ++ [.createBlobEv content sha] })

/-- `octokit.rest.git.createTree` with `base_tree`: a new tree that layers
the given full-path entries on the base tree. -/
def createTree (fl : Bool) (base : Nat) (entries : List (String × Nat))
    (st : GitState) : Except GitError Nat × GitState :=
  if fl then (.error .apiFailure, st)
  else match assoc st.trees base with
    | none => (.error .notFound, st)
    | some baseEntries =>
      let sha := st.nextSha
      (.ok sha, { st with trees := (sha, overlay baseEntries entries) :: st.trees,
                          nextSha := sha + 1,
                          trace := st.trace ++ [.createTreeEv base entries sha] })

/-- `octokit.rest.git.createCommit` with a single parent. -/
def createCommit (fl : Bool) (msg : String) (tree : Nat) (parent : Nat)
    (st : GitState) : Except GitError Nat × GitState :=
  if fl then (.error .apiFailure, st)
  else match assoc st.trees tree with
    | none => (.error .notFound, st)
    | some _ =>
      let sha := st.nextSha
      (.ok sha, { st with commits := (sha, ⟨tree, [parent], msg⟩) :: st.commits,
                          nextSha := sha + 1,
                          trace := st.trace ++ [.createCommitEv tree parent sha] })

/-- `octokit.rest.git.updateRef`: move the branch pointer. -/
def updateRef (fl : Bool) (branch : String) (sha : Nat) (st : GitState) :
    Except GitError Unit × GitState :=
  if fl then (.error .apiFailure, st)
  else match assoc st.commits sha with
    | none => (.error .notFound, st)
    | some _ =>
      (.ok (), { st with refs := setEntry st.refs branch sha,
                         trace := st.trace ++ [.updateRefEv branch sha] })

/-- One file of a multi-file upload (`files.map` element in
`uploadMultipleFiles`); base64 transport encoding is abstracted away, the
`content` here is the decoded payload the blob ends up holding. -/
structure FileEntry where
  path : String
  content : String
deriving DecidableEq

/-- The `Promise.all(files.map(createBlob))` step.  The calls are issued
together; this model runs them in list order.  A rejected call leaves the
remaining calls running (their blobs are still created) and the first
rejection becomes the result, as with `Promise.all`. -/
def createBlobs (oracle : Nat → Bool) (idx : Nat) (files : List FileEntry)
    (st : GitState) : Except GitError (List (String × Nat)) × GitState :=
  match files with
  | [] => (.ok [], st)
  | f :: rest =>
    match createBlob (oracle idx) f.content st with
    | (.ok sha, st1) =>
      match createBlobs oracle (idx + 1) rest st1 with
      | (.ok entries, st2) => (.ok ((f.path, sha) :: entries), st2)
      | (.error e, st2) => (.error e, st2)
    | (.error e, st1) =>
      (.error e, (createBlobs oracle (idx + 1) rest st1).2)

/-- `GitHubPublisher.uploadMultipleFiles`: the six-step Git Data API
sequence.  `oracle i` tells whether the i-th network call of this operation
fails; the JS `catch` only logs and rethrows, so an error propagates
unchanged. -/
def uploadMultipleFiles (oracle : Nat → Bool) (branch : String)
    (files : List FileEntry) (commitMessage : String) (st : GitState) :
    Except GitError Nat × GitState :=
  match getRef (oracle 0) branch st with
  | (.error e, st1) => (.error e, st1)
  | (.ok currentCommitSha, st1) =>
  match getCommit (oracle 1) currentCommitSha st1 with
  | (.error e, st2) => (.error e, st2)
  | (.ok baseTreeSha, st2) =>
  match createBlobs oracle 2 files st2 with
  | (.error e, st3) => (.error e, st3)
  | (.ok blobEntries, st3) =>
  match createTree (oracle (2 + files.length)) baseTreeSha blobEntries st3 with
  | (.error e, st4) => (.error e, st4)
  | (.ok treeSha, st4) =>
  match createCommit (oracle (3 + files.length)) commitMessage treeSha
      currentCommitSha st4 with
  | (.error e, st5) => (.error e, st5)
  | (.ok newCommitSha, st5) =>
  match updateRef (oracle (4 + files.length)) branch newCommitSha st5 with
  | (.error e, st6) => (.error e, st6)
  | (.ok _, st6) => (.ok newCommitSha, st6)

/-- The flat tree of the branch's current head commit. -/
def branchTree (st : GitState) (branch : String) : Option (List (String × Nat)) :=
  match assoc st.refs branch with
  | none => none
  | some c =>
    match assoc st.commits c with
    | none => none
    | some co => assoc st.trees co.tree

/-- Content of the file at `path` on `branch`, as an external reader sees it. -/
def branchFile (st : GitState) (branch path : String) : Option String :=
  match branchTree st branch with
  | none => none
  | some entries =>
    match assoc entries path with
    | none => none
    | some blobSha => assoc st.blobs blobSha

/-- The branch resolves to a commit whose tree exists: the precondition for
the read steps of the protocol to succeed. -/
def ReachableOk (st : GitState) (branch : String) : Prop :=
  (branchTree st branch).isSome = true

/-- Every object id stored anywhere is below the allocation counter, so a
freshly allocated sha never collides with an existing one. -/
def WFSha (st : GitState) : Prop :=
  (∀ p ∈ st.blobs, p.1 < st.nextSha) ∧
  (∀ p ∈ st.trees, p.1 < st.nextSha ∧ ∀ e ∈ p.2, e.2 < st.nextSha) ∧
  (∀ p ∈ st.commits, p.1 < st.nextSha ∧ p.2.tree < st.nextSha) ∧
  (∀ p ∈ st.refs, p.2 < st.nextSha)

instance (st : GitState) (branch : String) : Decidable (ReachableOk st branch) := by
  unfold ReachableOk; infer_instance

instance (st : GitState) : Decidable (WFSha st) := by
  unfold WFSha; infer_instance

/-! ## Publisher configuration and the higher-level publisher methods -/
/-- The fields of `GitHubPublisher` the claims touch (`token` reduced to a
configured/not-configured flag; owner/repo just select the single remote
repository modelled by `GitState`). -/
structure Config where
  token : Bool
  branch : String
  pagesBaseUrl : String
deriving DecidableEq

/-- A processed photo as built by the `/api/generate` photo loop: the
gallery URL and label, plus — for locally uploaded files — the repo image
file (`base64Content`/`filename`). -/
structure ImageFile where
  filename : String
  content : String
deriving DecidableEq

structure ProcessedPhoto where
  url : String
  label : Option Json
  file : Option ImageFile

/-- The file list `publishPropertySite` uploads: the site page plus one
image file per photo that carries repo-stored content. -/
def publishFiles (slug html : String) (images : List ProcessedPhoto) :
    List FileEntry :=
  ⟨"properties/" ++ slug ++ "/index.html", html⟩ ::
    images.filterMap (fun im =>
      im.file.map (fun f =>
        FileEntry.mk ("properties/" ++ slug ++ "/images/" ++ f.filename)
          f.content))

/-- `GitHubPublisher.publishPropertySite`. -/
def publishPropertySite (oracle : Nat → Bool) (cfg : Config)
    (slug html : String) (images : List ProcessedPhoto) (st : GitState) :
    Except GitError String × GitState :=
  match uploadMultipleFiles oracle cfg.branch (publishFiles slug html images)
      ("Add property site: " ++ slug) st with
  | (.error e, st') => (.error e, st')
  | (.ok _, st') =>
    (.ok (cfg.pagesBaseUrl ++ "/properties/" ++ slug ++ "/"), st')

/-! ## `repos.getContent`, the lister and the deleter

`getContent` on a directory path returns the immediate children only, each
typed `file` or `dir`; on a file path it returns the single entry; on an
absent path the API answers 404.  In the flat tree model a child of `dir`
is the next path component of any entry under `dir`. -/
inductive ContentType where
  | file
  | dir
deriving DecidableEq

structure ContentItem where
  name : String
  path : String
  itemType : ContentType
  sha : Nat
deriving DecidableEq

inductive ContentResult where
  | file (item : ContentItem)
  | dir (items : List ContentItem)
deriving DecidableEq

/-- Split a character list at every occurrence of `sep` (the semantics of
JavaScript `split` with a one-character separator, structurally recursive
so that proofs can evaluate it). -/
def splitOnChar (sep : Char) : List Char → List (List Char)
  | [] => [[]]
  | c :: rest =>
    let r := splitOnChar sep rest
    if c = sep then [] :: r
    else
      match r with
      | [] => [[c]]
      | w :: ws => (c :: w) :: ws

/-- Split a string at a one-character separator. -/
def splitPath (s : String) (sep : Char) : List String :=
  (splitOnChar sep s.data).map (fun w => String.mk w)

/-- If `p` lies strictly under the directory given by `dirParts`, its next
path component; otherwise `none`. -/
def childNameUnder (dirParts : List String) (p : String) : Option String :=
  let ps := splitPath p '/'
  if ps.take dirParts.length = dirParts then (ps.drop dirParts.length).head?
  else none

/-- Immediate child names of a directory, in order of first appearance. -/
def childNames (entries : List (String × Nat)) (dirParts : List String) :
    List String :=
  (entries.filterMap (fun e => childNameUnder dirParts e.1)).eraseDups

def joinPath (parts : List String) : String :=
  String.intercalate "/" parts

/-- A child is a file iff the tree has a blob at exactly that path. -/
def childItem (entries : List (String × Nat)) (dirParts : List String)
    (name : String) : ContentItem :=
  let full := joinPath (dirParts ++ [name])
  match assoc entries full with
  | some blobSha => ⟨name, full, .file, blobSha⟩
  | none => ⟨name, full, .dir, 0⟩

/-- `octokit.rest.repos.getContent` at `path` on the configured branch. -/
def getContent (branch path : String) (st : GitState) :
    Except GitError ContentResult × GitState :=
  match branchTree st branch with
  | none => (.error .notFound, st)
  | some entries =>
    match assoc entries path with
    | some blobSha =>
      (.ok (.file ⟨(splitPath path '/').getLastD path, path, .file, blobSha⟩),
        { st with trace := st.trace ++ [.getContentEv path] })
    | none =>
      let dirParts := splitPath path '/'
      let names := childNames entries dirParts
      if names.isEmpty then (.error .notFound, st)
      else
        (.ok (.dir (names.map (childItem entries dirParts))),
          { st with trace := st.trace ++ [.getContentEv path] })

structure SiteRef where
  slug : String
  url : String
deriving DecidableEq

/-- `GitHubPublisher.listPropertySites`: 404 is caught and turned into an
empty list; a non-array answer also yields an empty list; directory
children become `{slug, url}` records. -/
def listPropertySites (cfg : Config) (st : GitState) :
    Except GitError (List SiteRef) × GitState :=
  match getContent cfg.branch "properties" st with
  | (.error .notFound, st') => (.ok [], st')
  | (.error e, st') => (.error e, st')
  | (.ok (.dir items), st') =>
    (.ok ((items.filter (fun i => i.itemType = .dir)).map (fun i =>
      ⟨i.name, cfg.pagesBaseUrl ++ "/properties/" ++ i.name ++ "/"⟩)), st')
  | (.ok (.file _), st') => (.ok [], st')

/-- `octokit.rest.repos.deleteFile`: remove the blob at `path` (whose sha
must match) in a fresh commit and advance the branch.  A path that is not a
file (for example a directory entry) is 404.  The event records that a
remove call was issued and whether it succeeded. -/
def deleteFile (branch path : String) (sha : Nat) (msg : String)
    (st : GitState) : Except GitError Unit × GitState :=
  match assoc st.refs branch with
  | none => (.error .notFound, st)
  | some headSha =>
  match assoc st.commits headSha with
  | none => (.error .notFound, st)
  | some co =>
  match assoc st.trees co.tree with
  | none => (.error .notFound, st)
  | some entries =>
  if assoc entries path = some sha then
    let newTreeSha := st.nextSha
    let newCommitSha := st.nextSha + 1
    (.ok (), { refs := setEntry st.refs branch newCommitSha,
               commits := (newCommitSha, ⟨newTreeSha, [headSha], msg⟩) :: st.commits,
               trees := (newTreeSha, removeEntry entries path) :: st.trees,
               blobs := st.blobs,
               nextSha := st.nextSha + 2,
               trace := st.trace ++ [.deleteFileEv path true] })
  else (.error .notFound, { st with trace := st.trace ++ [.deleteFileEv path false] })

/-- The `for (const file of files)` loop of `deletePropertySite`: one
separate remove call per listed entry, aborting at the first error. -/
def deleteLoop (branch slug : String) :
    List ContentItem → GitState → Except GitError Unit × GitState
  | [], st => (.ok (), st)
  | item :: rest, st =>
    match deleteFile branch item.path item.sha
        ("Delete property site: " ++ slug) st with
    | (.error e, st') => (.error e, st')
    | (.ok _, st') => deleteLoop branch slug rest st'

/-- `GitHubPublisher.deletePropertySite`: list `properties/<slug>` once,
then delete each listed entry (`Array.isArray(data) ? data : [data]`). -/
def deletePropertySite (cfg : Config) (slug : String) (st : GitState) :
    Except GitError Unit × GitState :=
  match getContent cfg.branch ("properties/" ++ slug) st with
  | (.error e, st') => (.error e, st')
  | (.ok (.file item), st') => deleteLoop cfg.branch slug [item] st'
  | (.ok (.dir items), st') => deleteLoop cfg.branch slug items st'

/-! ## The slug builder

`/api/generate` computes
`slugify(address + "-" + city, \x7b lower: true, strict: true \x7d)` with the
`slugify` npm library.  Modelled from the spec: the library is an external
dependency, not part of this repository; with these options it turns the
replacement character into whitespace, in strict mode removes every
character outside `[A-Za-z0-9]` and whitespace, trims, collapses whitespace
runs into single hyphens and lowercases. -/
/-- The 26 uppercase ASCII letters with their lowercase forms. -/
def upperTable : List (Char × Char) :=
  [('A', 'a'), ('B', 'b'), ('C', 'c'), ('D', 'd'), ('E', 'e'), ('F', 'f'),
   ('G', 'g'), ('H', 'h'), ('I', 'i'), ('J', 'j'), ('K', 'k'), ('L', 'l'),
   ('M', 'm'), ('N', 'n'), ('O', 'o'), ('P', 'p'), ('Q', 'q'), ('R', 'r'),
   ('S', 's'), ('T', 't'), ('U', 'u'), ('V', 'v'), ('W', 'w'), ('X', 'x'),
   ('Y', 'y'), ('Z', 'z')]

/-- Strict-mode character handling: digits and lowercase letters survive
unchanged, uppercase letters are lowercased, everything else is removed. -/
def slugCharMap (c : Char) : Option Char :=
  if c.isDigit then some c
  else if c.isLower then some c
  else (upperTable.find? (fun p => p.1 = c)).map Prod.snd

/-- One character of the left-to-right pass; `acc` holds the output built
so far, reversed.  Whitespace contributes a single separating hyphen, and
only between kept characters. -/
def slugStep (acc : List Char) (c : Char) : List Char :=
  if c = ' ' then
    if acc = [] ∨ acc.head? = some '-' then acc else '-' :: acc
  else
    match slugCharMap c with
    | some c' => c' :: acc
    | none => acc

/-- `slugify(s, \x7b lower: true, strict: true \x7d)`. -/
def slugify (s : String) : String :=
  let mapped := s.data.map (fun c => if c = '-' then ' ' else c)
  let racc := mapped.foldl slugStep []
  String.mk ((racc.dropWhile (fun c => c = '-')).reverse)

/-- The slug expression of `POST /api/generate`. -/
def buildSlug (address city : String) : String :=
  slugify (address ++ "-" ++ city)

/-! ## The `/api/generate` route -/
/-- The `requiredFields` array of the route, verbatim. -/
def requiredFields : List String :=
  ["property.address", "property.city", "property.state", "property.zip",
   "property.price", "property.bedrooms", "property.bathrooms",
   "property.sqft", "property.yearBuilt", "property.description",
   "realtor.name", "realtor.company", "realtor.license", "realtor.phone",
   "realtor.email",
   "loanOfficer.name", "loanOfficer.company", "loanOfficer.nmls",
   "loanOfficer.phone", "loanOfficer.email"]

/-- The validation loop: walk each dotted path with `value = value?.[part]`
and collect the fields for which `!value` holds. -/
def missingFields (data : Json) : List String :=
  requiredFields.filter (fun f =>
    !truthy (getPath (some data) (splitPath f '.')))

/-- `path.extname`: the extension of the final path component, empty when
there is no dot or only a leading dot. -/
def extname (p : String) : String :=
  let base := (splitPath p '/').getLastD p
  let parts := splitPath base '.' 
  match parts with
  | [] => ""
  | [_] => ""
  | "" :: [_] => ""
  | _ => "." ++ parts.getLastD ""

/-- The `data.photos` array (`data.photos && Array.isArray(data.photos)`). -/
def photosArr (data : Json) : List Json :=
  match jget data "photos" with
  | some (.arr xs) => xs
  | _ => []

/-- One iteration of the photo-processing loop.  `disk` maps a photo's
`path` field to the uploaded file's content ("`fs.readFile` succeeds");
a missing entry is a read error, which the `catch` swallows: the photo is
skipped and nothing is recorded. -/
def photoStep (disk : List (String × String)) (acc : List ProcessedPhoto)
    (x : Json) : List ProcessedPhoto :=
  if truthy (jget x "url") then
    acc ++ [⟨jstr (jget x "url"), jget x "label", none⟩]
  else if truthy (jget x "path") then
    match assoc disk (jstr (jget x "path")) with
    | none => acc
    | some content =>
      let ext := extname (jstr (jget x "path"))
      let filename := "photo-" ++ toString (acc.length + 1) ++ ext
      acc ++ [⟨"./images/" ++ filename, jget x "label",
              some ⟨filename, content⟩⟩]
  else acc

/-- The photo-processing loop of `/api/generate`. -/
def processPhotos (disk : List (String × String)) (photos : List Json) :
    List ProcessedPhoto :=
  photos.foldl (photoStep disk) []

/-- Modelled from the spec: `generatePropertyHTML` lives in
`src/template.js`, which is not among the provided sources; the spec says
it is a pure function of the property record, the contact profiles, the
ordered photo list and the testimonials that substitutes every required
field.  Modelled as a canonical encoding of those inputs. -/
def generatePropertyHTML (data : Json) (photos : List ProcessedPhoto)
    (slug : String) : String :=
  "<html>" ++ jstr (getPath (some data) ["property", "address"]) ++ "|" ++
    jstr (getPath (some data) ["property", "city"]) ++ "|" ++
    jstr (getPath (some data) ["property", "price"]) ++ "|" ++
    jstr (getPath (some data) ["realtor", "name"]) ++ "|" ++
    jstr (getPath (some data) ["loanOfficer", "name"]) ++ "|" ++
    String.intercalate "," (photos.map (fun p => p.url)) ++ "|" ++
    slug ++ "</html>"

/-- The JSON payloads the routes answer with. -/
inductive Response where
  | validationError (error : String) (missing : List String)
  | serverError (error : String)
  | publishedOk (url slug : String)
  | htmlOk (html slug : String)
  | listOk (props : List SiteRef)
  | deleteOk
deriving DecidableEq

/-- `POST /api/generate`: validate, slugify, process photos, render, then
publish when GitHub is configured; the `catch` turns a publish error into
a 500 `{success:false, error}` payload.  The post-publish best-effort
`fs.unlink` cleanup touches only the local upload store and is not
modelled. -/
def handleGenerate (cfg : Config) (oracle : Nat → Bool)
    (disk : List (String × String)) (data : Json) (st : GitState) :
    Response × GitState :=
  let missing := missingFields data
  if missing.length > 0 then
    (.validationError "Missing required fields" missing, st)
  else
    let slug := buildSlug (jstr (getPath (some data) ["property", "address"]))
      (jstr (getPath (some data) ["property", "city"]))
    let photos := processPhotos disk (photosArr data)
    let html := generatePropertyHTML data photos slug
    if cfg.token then
      match publishPropertySite oracle cfg slug html
          (photos.filter (fun p => p.file.isSome)) st with
      | (.error e, st') => (.serverError e.message, st')
      | (.ok url, st') => (.publishedOk url slug, st')
    else (.htmlOk html slug, st)

/-- `GET /api/properties`. -/
def handleListProperties (cfg : Config) (st : GitState) :
    Response × GitState :=
  if !cfg.token then (.listOk [], st)
  else
    match listPropertySites cfg st with
    | (.ok props, st') => (.listOk props, st')
    | (.error e, st') => (.serverError e.message, st')

/-- `DELETE /api/properties/:slug`. -/
def handleDeleteProperty (cfg : Config) (slug : String) (st : GitState) :
    Response × GitState :=
  if !cfg.token then (.serverError "GitHub not configured", st)
  else
    match deletePropertySite cfg slug st with
    | (.ok _, st') => (.deleteOk, st')
    | (.error e, st') => (.serverError e.message, st')

/-! ## The blob-creation step and the master success lemma -/
/-- The trace events of the blob-creation step, one per file. -/
def blobEvents (files : List FileEntry) (entries : List (String × Nat)) :
    List Event :=
  List.zipWith (fun f (e : String × Nat) => Event.createBlobEv f.content e.2)
    files entries

/-- Recognize a branch-pointer move in the trace. -/
def Event.isUpdateRef : Event → Bool
  | .updateRefEv _ _ => true
  | _ => false

/-! Concrete publish scenario for the supersede claim: first publish a site
with a page and one image, then publish the same slug with only a page. -/
def cexCfg : Config := ⟨true, "main", "https://owner.github.io/LuminateSPS"⟩

/-- A hosted repository whose `main` branch has one empty-tree commit. -/
def cexSt0 : GitState :=
  { refs := [("main", 0)],
    commits := [(0, ⟨1, [], "init"⟩)],
    trees := [(1, [])],
    blobs := [],
    nextSha := 2,
    trace := [] }

def cexPhoto : ProcessedPhoto :=
  ⟨"./images/photo-1.png", none, some ⟨"photo-1.png", "IMGDATA"⟩⟩

def cexSt1 : GitState :=
  (publishPropertySite (fun _ => false) cexCfg "s" "h1" [cexPhoto] cexSt0).2

def cexSt2 : GitState :=
  (publishPropertySite (fun _ => false) cexCfg "s" "h2" [] cexSt1).2

/-! ## Fault analysis for the failure-policy claim -/
/-- State after a successful `getRef` call. -/
@[simp] def stAfterGetRef (st : GitState) (branch : String) (c1 : Nat) :
    GitState :=
  { st with trace := st.trace ++ [.getRefEv branch c1] }

/-- State after a successful `getCommit` call. -/
@[simp] def stAfterGetCommit (st : GitState) (sha t1 : Nat) : GitState :=
  { st with trace := st.trace ++ [.getCommitEv sha t1] }

/-- State after a successful `createTree` call. -/
@[simp] def stAfterCreateTree (st : GitState) (base : Nat)
    (baseEntries entries : List (String × Nat)) : GitState :=
  { st with trees := (st.nextSha, overlay baseEntries entries) :: st.trees,
            nextSha := st.nextSha + 1,
            trace := st.trace ++ [.createTreeEv base entries st.nextSha] }

/-- State after a successful `createCommit` call. -/
@[simp] def stAfterCreateCommit (st : GitState) (msg : String)
    (tree parent : Nat) : GitState :=
  { st with commits := (st.nextSha, ⟨tree, [parent], msg⟩) :: st.commits,
            nextSha := st.nextSha + 1,
            trace := st.trace ++ [.createCommitEv tree parent st.nextSha] }

/-- Number of API calls that completed when call `j` of the protocol
rejects (inside the blob step the other already-issued blob calls still
complete). -/
def expectedCalls (j len : Nat) : Nat :=
  if j < 2 then j else if j < 2 + len then 1 + len else j

/-- Two files of a demonstration publish. -/
def demoFiles : List FileEntry :=
  [⟨"properties/s/index.html", "h1"⟩, ⟨"properties/s/images/a.png", "IMG"⟩]

/-- A complete `/api/generate` request body with every required field
present; `price` is the given number. -/
def genData (price : Int) : Json :=
  .obj [("property", .obj
          [("address", .str "123 Main St"), ("city", .str "Springfield"),
           ("state", .str "IL"), ("zip", .str "62701"),
           ("price", .num price), ("bedrooms", .num 3),
           ("bathrooms", .num 2), ("sqft", .num 2000),
           ("yearBuilt", .num 1999), ("description", .str "Nice home")]),
        ("realtor", .obj
          [("name", .str "Rae Altor"), ("company", .str "Realty Co"),
           ("license", .str "RE123"), ("phone", .str "555-0100"),
           ("email", .str "rae@realty.example")]),
        ("loanOfficer", .obj
          [("name", .str "Lon Officer"), ("company", .str "Lending Co"),
           ("nmls", .str "NM456"), ("phone", .str "555-0101"),
           ("email", .str "lon@lending.example")])]

/-- The same request body with `property.zip` removed. -/
def genDataNoZip : Json :=
  .obj [("property", .obj
          [("address", .str "123 Main St"), ("city", .str "Springfield"),
           ("state", .str "IL"),
           ("price", .num 500000), ("bedrooms", .num 3),
           ("bathrooms", .num 2), ("sqft", .num 2000),
           ("yearBuilt", .num 1999), ("description", .str "Nice home")]),
        ("realtor", .obj
          [("name", .str "Rae Altor"), ("company", .str "Realty Co"),
           ("license", .str "RE123"), ("phone", .str "555-0100"),
           ("email", .str "rae@realty.example")]),
        ("loanOfficer", .obj
          [("name", .str "Lon Officer"), ("company", .str "Lending Co"),
           ("nmls", .str "NM456"), ("phone", .str "555-0101"),
           ("email", .str "lon@lending.example")])]

/-- The demonstration upload of `demoFiles` with no faults. -/
def demoUp : Except GitError Nat × GitState :=
  uploadMultipleFiles (fun _ => false) "main" demoFiles "m" cexSt0

/-- A photo entry pointing at a local upload that is not on disk. -/
def badPhoto : Json := .obj [("path", .str "/uploads/missing.png")]

/-! ## Theorems -/

theorem assoc_setEntry_self {α β : Type} [DecidableEq α]
    (l : List (α × β)) (k : α) (v : β) : assoc (setEntry l k v) k = some v := by
  induction l with
  | nil => simp [setEntry, assoc]
  | cons e rest ih =>
    by_cases h : e.1 = k
    · simp [setEntry, h, assoc]
    · simp [setEntry, h, assoc, ih]

theorem assoc_setEntry_other {α β : Type} [DecidableEq α]
    (l : List (α × β)) (k k' : α) (v : β) (h : k' ≠ k) :
    assoc (setEntry l k v) k' = assoc l k' := by
  induction l with
  | nil =>
    simp only [setEntry, assoc]
    rw [if_neg (fun h' : k = k' => h h'.symm)]
  | cons e rest ih =>
    by_cases he : e.1 = k
    · simp only [setEntry, if_pos he, assoc]
      rw [if_neg (fun h' : k = k' => h h'.symm),
        if_neg (fun h' : e.1 = k' => h (he.symm.trans h').symm)]
    · simp only [setEntry, if_neg he, assoc, ih]

theorem overlay_assoc_notmem (entries : List (String × Nat)) :
    ∀ (base : List (String × Nat)) (p : String),
      (∀ e ∈ entries, e.1 ≠ p) →
      assoc (overlay base entries) p = assoc base p := by
  induction entries with
  | nil => intro base p _; rfl
  | cons e es ih =>
    intro base p hp
    have h1 : assoc (overlay (setEntry base e.1 e.2) es) p
        = assoc (setEntry base e.1 e.2) p :=
      ih _ _ (fun x hx => hp x (List.mem_cons_of_mem _ hx))
    have h2 : assoc (setEntry base e.1 e.2) p = assoc base p :=
      assoc_setEntry_other _ _ _ _ (fun h => hp e (List.mem_cons_self _ _) h.symm)
    simpa [overlay, h1] using h2

theorem overlay_assoc_mem (entries : List (String × Nat)) :
    ∀ (base : List (String × Nat)) (p : String) (v : Nat),
      (entries.map Prod.fst).Nodup → (p, v) ∈ entries →
      assoc (overlay base entries) p = some v := by
  induction entries with
  | nil => intro base p v _ hmem; cases hmem
  | cons e es ih =>
    intro base p v hnd hmem
    rw [List.map_cons] at hnd
    rcases List.mem_cons.1 hmem with h | h
    · subst h
      have hnot : ∀ x ∈ es, x.1 ≠ p := by
        intro x hx hxp
        have hmem' : x.1 ∈ es.map Prod.fst := List.mem_map_of_mem Prod.fst hx
        rw [hxp] at hmem'
        exact (List.nodup_cons.1 hnd).1 hmem'
      calc assoc (overlay (setEntry base p v) es) p
          = assoc (setEntry base p v) p := overlay_assoc_notmem es _ _ hnot
        _ = some v := assoc_setEntry_self _ _ _
    · exact ih _ _ _ (List.nodup_cons.1 hnd).2 h

theorem setEntry_mem {α β : Type} [DecidableEq α]
    (l : List (α × β)) (k : α) (v : β) :
    ∀ x ∈ setEntry l k v, x ∈ l ∨ x = (k, v) := by
  induction l with
  | nil => intro x hx; simp [setEntry] at hx; simp [hx]
  | cons e rest ih =>
    intro x hx
    by_cases he : e.1 = k
    · simp only [setEntry, if_pos he] at hx
      rcases List.mem_cons.1 hx with h | h
      · right; exact h
      · left; exact List.mem_cons_of_mem _ h
    · simp only [setEntry, if_neg he] at hx
      rcases List.mem_cons.1 hx with h | h
      · left; exact h ▸ List.mem_cons_self _ _
      · rcases ih x h with h' | h'
        · left; exact List.mem_cons_of_mem _ h'
        · right; exact h'

theorem overlay_mem (entries : List (String × Nat)) :
    ∀ (base : List (String × Nat)) (x : String × Nat),
      x ∈ overlay base entries → x ∈ base ∨ x ∈ entries := by
  induction entries with
  | nil => intro base x hx; left; exact hx
  | cons e es ih =>
    intro base x hx
    rcases ih _ _ hx with h | h
    · rcases setEntry_mem base e.1 e.2 x h with h' | h'
      · left; exact h'
      · right
        have hxe : x = e := by rw [h']
        exact hxe ▸ List.mem_cons_self _ _
    · right; exact List.mem_cons_of_mem _ h

/-! ## Inversion lemmas for the API primitives -/
theorem getRef_ok {fl : Bool} {branch : String} {st : GitState} {sha : Nat}
    {st' : GitState} (h : getRef fl branch st = (.ok sha, st')) :
    fl = false ∧ assoc st.refs branch = some sha ∧
      st' = { st with trace := st.trace ++ [.getRefEv branch sha] } := by
  cases fl with
  | true => simp [getRef] at h
  | false =>
    cases hr : assoc st.refs branch with
    | none => simp [getRef, hr] at h
    | some s =>
      simp only [getRef, hr, Bool.false_eq_true, if_false] at h
      cases h
      exact ⟨rfl, rfl, rfl⟩

theorem getCommit_ok {fl : Bool} {sha : Nat} {st : GitState} {t : Nat}
    {st' : GitState} (h : getCommit fl sha st = (.ok t, st')) :
    fl = false ∧ (∃ co, assoc st.commits sha = some co ∧ co.tree = t) ∧
      st' = { st with trace := st.trace ++ [.getCommitEv sha t] } := by
  cases fl with
  | true => simp [getCommit] at h
  | false =>
    cases hr : assoc st.commits sha with
    | none => simp [getCommit, hr] at h
    | some co =>
      simp only [getCommit, hr, Bool.false_eq_true, if_false] at h
      cases h
      exact ⟨rfl, ⟨co, rfl, rfl⟩, rfl⟩

theorem createBlob_ok {fl : Bool} {content : String} {st : GitState}
    {sha : Nat} {st' : GitState} (h : createBlob fl content st = (.ok sha, st')) :
    fl = false ∧ sha = st.nextSha ∧
      st' = { st with blobs := (st.nextSha, content) :: st.blobs,
                      nextSha := st.nextSha + 1,
                      trace := st.trace ++ [.createBlobEv content st.nextSha] } := by
  cases fl with
  | true => simp [createBlob] at h
  | false =>
    simp only [createBlob, Bool.false_eq_true, if_false] at h
    cases h
    exact ⟨rfl, rfl, rfl⟩

theorem createTree_ok {fl : Bool} {base : Nat} {entries : List (String × Nat)}
    {st : GitState} {sha : Nat} {st' : GitState}
    (h : createTree fl base entries st = (.ok sha, st')) :
    fl = false ∧ sha = st.nextSha ∧
      ∃ baseEntries, assoc st.trees base = some baseEntries ∧
      st' = { st with trees := (st.nextSha, overlay baseEntries entries) :: st.trees,
                      nextSha := st.nextSha + 1,
                      trace := st.trace ++ [.createTreeEv base entries st.nextSha] } := by
  cases fl with
  | true => simp [createTree] at h
  | false =>
    cases hr : assoc st.trees base with
    | none => simp [createTree, hr] at h
    | some baseEntries =>
      simp only [createTree, hr, Bool.false_eq_true, if_false] at h
      cases h
      exact ⟨rfl, rfl, baseEntries, rfl, rfl⟩

theorem createCommit_ok {fl : Bool} {msg : String} {tree parent : Nat}
    {st : GitState} {sha : Nat} {st' : GitState}
    (h : createCommit fl msg tree parent st = (.ok sha, st')) :
    fl = false ∧ sha = st.nextSha ∧ (assoc st.trees tree).isSome = true ∧
      st' = { st with commits := (st.nextSha, ⟨tree, [parent], msg⟩) :: st.commits,
                      nextSha := st.nextSha + 1,
                      trace := st.trace ++ [.createCommitEv tree parent st.nextSha] } := by
  cases fl with
  | true => simp [createCommit] at h
  | false =>
    cases hr : assoc st.trees tree with
    | none => simp [createCommit, hr] at h
    | some te =>
      simp only [createCommit, hr, Bool.false_eq_true, if_false] at h
      cases h
      exact ⟨rfl, rfl, by simp [hr], rfl⟩

theorem updateRef_ok {fl : Bool} {branch : String} {sha : Nat} {st : GitState}
    {u : Unit} {st' : GitState} (h : updateRef fl branch sha st = (.ok u, st')) :
    fl = false ∧ (assoc st.commits sha).isSome = true ∧
      st' = { st with refs := setEntry st.refs branch sha,
                      trace := st.trace ++ [.updateRefEv branch sha] } := by
  cases fl with
  | true => simp [updateRef] at h
  | false =>
    cases hr : assoc st.commits sha with
    | none => simp [updateRef, hr] at h
    | some co =>
      simp only [updateRef, hr, Bool.false_eq_true, if_false] at h
      cases h
      exact ⟨rfl, by simp [hr], rfl⟩

theorem forall₂_mem_left {α β : Type} {R : α → β → Prop} :
    ∀ {l₁ : List α} {l₂ : List β}, List.Forall₂ R l₁ l₂ → ∀ a ∈ l₁,
      ∃ b ∈ l₂, R a b := by
  intro l₁ l₂ h
  induction h with
  | nil => intro a ha; cases ha
  | cons hr _ ih =>
    intro a ha
    rcases List.mem_cons.1 ha with rfl | ha'
    · exact ⟨_, List.mem_cons_self _ _, hr⟩
    · obtain ⟨b, hb, hrb⟩ := ih a ha'
      exact ⟨b, List.mem_cons_of_mem _ hb, hrb⟩

theorem forall₂_mem_right {α β : Type} {R : α → β → Prop} :
    ∀ {l₁ : List α} {l₂ : List β}, List.Forall₂ R l₁ l₂ → ∀ b ∈ l₂,
      ∃ a ∈ l₁, R a b := by
  intro l₁ l₂ h
  induction h with
  | nil => intro b hb; cases hb
  | cons hr _ ih =>
    intro b hb
    rcases List.mem_cons.1 hb with rfl | hb'
    · exact ⟨_, List.mem_cons_self _ _, hr⟩
    · obtain ⟨a, ha, hra⟩ := ih b hb'
      exact ⟨a, List.mem_cons_of_mem _ ha, hra⟩

/-- What a successful `Promise.all(createBlob…)` step did: it created one
blob per file payload, holding that payload, with fresh ids; it touched no
ref, tree or commit; and it appended exactly one trace event per file. -/
theorem createBlobs_ok_inv (oracle : Nat → Bool) :
    ∀ (files : List FileEntry) (idx : Nat) (st : GitState)
      (entries : List (String × Nat)) (st' : GitState),
      createBlobs oracle idx files st = (.ok entries, st') →
      (∀ p ∈ st.blobs, p.1 < st.nextSha) →
      st'.refs = st.refs ∧ st'.trees = st.trees ∧ st'.commits = st.commits ∧
      st'.nextSha = st.nextSha + files.length ∧
      (∀ k, k < st.nextSha → assoc st'.blobs k = assoc st.blobs k) ∧
      (∀ p ∈ st'.blobs, p.1 < st'.nextSha) ∧
      entries.map Prod.fst = files.map FileEntry.path ∧
      List.Forall₂ (fun (f : FileEntry) (e : String × Nat) =>
        e.1 = f.path ∧ st.nextSha ≤ e.2 ∧ e.2 < st'.nextSha ∧
        assoc st'.blobs e.2 = some f.content) files entries ∧
      st'.trace = st.trace ++ blobEvents files entries ∧
      (∃ bs, st'.blobs = bs ++ st.blobs) := by
  intro files
  induction files with
  | nil =>
    intro idx st entries st' h hkeys
    simp only [createBlobs] at h
    cases h
    refine ⟨rfl, rfl, rfl, by simp, fun k _ => rfl, hkeys, rfl,
      List.Forall₂.nil, by simp [blobEvents], ⟨[], rfl⟩⟩
  | cons f rest ih =>
    intro idx st entries st' h hkeys
    simp only [createBlobs] at h
    rcases hcb : createBlob (oracle idx) f.content st with ⟨r1, st1⟩
    rw [hcb] at h
    cases r1 with
    | error e => simp at h
    | ok sha =>
      obtain ⟨-, rfl, rfl⟩ := createBlob_ok hcb
      dsimp only at h
      rcases hcbs : createBlobs oracle (idx + 1) rest
          { st with blobs := (st.nextSha, f.content) :: st.blobs,
                    nextSha := st.nextSha + 1,
                    trace := st.trace ++ [.createBlobEv f.content st.nextSha] } with
        ⟨r2, st2⟩
      rw [hcbs] at h
      cases r2 with
      | error e => simp at h
      | ok es =>
        cases h
        have hkeys1 : ∀ p ∈ (st.nextSha, f.content) :: st.blobs,
            p.1 < st.nextSha + 1 := by
          intro p hp
          rcases List.mem_cons.1 hp with rfl | hp'
          · exact Nat.lt_succ_self _
          · exact Nat.lt_succ_of_lt (hkeys p hp')
        obtain ⟨hrefs, htrees, hcommits, hnext, hpres, hbound, hmapfst,
          hfa, htrace, bs, hbs⟩ := ih (idx + 1) _ es st' hcbs hkeys1
        simp only at hrefs htrees hcommits hnext hpres hbound htrace hbs
        refine ⟨hrefs, htrees, hcommits, by simp [hnext]; omega, ?_, hbound,
          by simp [hmapfst], ?_, ?_, ?_⟩
        · intro k hk
          have h1 : assoc st'.blobs k
              = assoc ((st.nextSha, f.content) :: st.blobs) k :=
            hpres k (Nat.lt_succ_of_lt hk)
          rw [h1, assoc]
          rw [if_neg (fun he : st.nextSha = k => absurd (he ▸ hk) (lt_irrefl _))]
        · refine List.Forall₂.cons ⟨rfl, le_refl _, ?_, ?_⟩ ?_
          · rw [hnext]; simp; omega
          · have h1 : assoc st'.blobs st.nextSha
                = assoc ((st.nextSha, f.content) :: st.blobs) st.nextSha :=
              hpres _ (Nat.lt_succ_self _)
            rw [h1, assoc, if_pos rfl]
          · refine hfa.imp ?_
            rintro a b ⟨h1, h2, h3, h4⟩
            exact ⟨h1, le_trans (Nat.le_succ _) h2, h3, h4⟩
        · rw [htrace]
          simp [blobEvents, List.append_assoc]
        · exact ⟨bs ++ [(st.nextSha, f.content)], by rw [hbs]; simp⟩

theorem assoc_mem {α β : Type} [DecidableEq α] :
    ∀ (l : List (α × β)) (k : α) (v : β), assoc l k = some v → (k, v) ∈ l := by
  intro l
  induction l with
  | nil => intro k v h; simp [assoc] at h
  | cons e rest ih =>
    intro k v h
    by_cases he : e.1 = k
    · rw [assoc, if_pos he] at h
      obtain rfl := Option.some.inj h
      have : e = (k, e.2) := by rw [← he]
      rw [this]
      exact List.mem_cons_self _ _
    · rw [assoc, if_neg he] at h
      exact List.mem_cons_of_mem _ (ih k v h)

/-- Master lemma: everything a successful `uploadMultipleFiles` run did —
the data flow between the six steps, the exact trace, the resulting branch
pointer, tree and blob contents, and well-formedness preservation. -/
theorem uploadOk_spec {oracle : Nat → Bool} {branch : String}
    {files : List FileEntry} {msg : String} {st : GitState} {c : Nat}
    {st' : GitState} (hwf : WFSha st)
    (h : uploadMultipleFiles oracle branch files msg st = (.ok c, st')) :
    ∃ (c1 t1 : Nat) (baseEntries entries : List (String × Nat)) (ts : Nat),
      assoc st.refs branch = some c1 ∧
      (∃ co, assoc st.commits c1 = some co ∧ co.tree = t1) ∧
      assoc st.trees t1 = some baseEntries ∧
      branchTree st branch = some baseEntries ∧
      entries.map Prod.fst = files.map FileEntry.path ∧
      List.Forall₂ (fun (f : FileEntry) (e : String × Nat) =>
        e.1 = f.path ∧ assoc st'.blobs e.2 = some f.content) files entries ∧
      assoc st'.trees ts = some (overlay baseEntries entries) ∧
      assoc st'.commits c = some ⟨ts, [c1], msg⟩ ∧
      st'.refs = setEntry st.refs branch c ∧
      branchTree st' branch = some (overlay baseEntries entries) ∧
      (∀ k, k < st.nextSha → assoc st'.blobs k = assoc st.blobs k) ∧
      st.nextSha ≤ st'.nextSha ∧
      WFSha st' ∧
      st'.trace = st.trace ++
        ([Event.getRefEv branch c1, Event.getCommitEv c1 t1] ++
          blobEvents files entries ++
          [Event.createTreeEv t1 entries ts, Event.createCommitEv ts c1 c,
           Event.updateRefEv branch c]) := by
  unfold uploadMultipleFiles at h
  rcases h1 : getRef (oracle 0) branch st with ⟨r1, st1⟩
  rw [h1] at h
  cases r1 with
  | error e => simp at h
  | ok c1 =>
  obtain ⟨-, href, hst1⟩ := getRef_ok h1
  dsimp only at h
  rcases h2 : getCommit (oracle 1) c1 st1 with ⟨r2, st2⟩
  rw [h2] at h
  cases r2 with
  | error e => simp at h
  | ok t1 =>
  obtain ⟨-, ⟨co, hco, hcotree⟩, hst2⟩ := getCommit_ok h2
  dsimp only at h
  rcases h3 : createBlobs oracle 2 files st2 with ⟨r3, st3⟩
  rw [h3] at h
  cases r3 with
  | error e => simp at h
  | ok entries =>
  dsimp only at h
  have hb1commits : st1.commits = st.commits := by rw [hst1]
  have hb2blobs : st2.blobs = st.blobs := by rw [hst2, hst1]
  have hb2next : st2.nextSha = st.nextSha := by rw [hst2, hst1]
  have hb2refs : st2.refs = st.refs := by rw [hst2, hst1]
  have hb2trees : st2.trees = st.trees := by rw [hst2, hst1]
  have hb2commits : st2.commits = st.commits := by rw [hst2, hst1]
  have hb2trace : st2.trace
      = st.trace ++ [.getRefEv branch c1, .getCommitEv c1 t1] := by
    rw [hst2, hst1]; simp
  have hkeys2 : ∀ p ∈ st2.blobs, p.1 < st2.nextSha := by
    rw [hb2blobs, hb2next]; exact hwf.1
  obtain ⟨h3refs, h3trees, h3commits, h3next, h3pres, h3bound, h3mapfst,
    h3fa, h3trace, h3bs⟩ := createBlobs_ok_inv oracle files 2 st2 entries st3 h3 hkeys2
  rcases h4 : createTree (oracle (2 + files.length)) t1 entries st3 with ⟨r4, st4⟩
  rw [h4] at h
  cases r4 with
  | error e => simp at h
  | ok ts =>
  obtain ⟨-, hts, baseEntries, hbase, hst4⟩ := createTree_ok h4
  dsimp only at h
  rcases h5 : createCommit (oracle (3 + files.length)) msg ts c1 st4 with ⟨r5, st5⟩
  rw [h5] at h
  cases r5 with
  | error e => simp at h
  | ok cs =>
  obtain ⟨-, hcs, -, hst5⟩ := createCommit_ok h5
  dsimp only at h
  rcases h6 : updateRef (oracle (4 + files.length)) branch cs st5 with ⟨r6, st6⟩
  rw [h6] at h
  cases r6 with
  | error e => simp at h
  | ok u =>
  obtain ⟨-, -, hst6⟩ := updateRef_ok h6
  cases h
  -- the returned sha unified with `c` and the final state with `st'`
  have hbaseSt : assoc st.trees t1 = some baseEntries := by
    rw [← hb2trees, ← h3trees]; exact hbase
  have hwftrees := hwf.2.1
  have hwfcommits := hwf.2.2.1
  have hwfrefs := hwf.2.2.2
  have h6refs : st'.refs = setEntry st.refs branch c := by
    rw [hst6, hst5, hst4]
    simp only
    rw [h3refs, hb2refs]
  have h6commits : st'.commits
      = (c, ⟨ts, [c1], msg⟩) :: st.commits := by
    rw [hst6, hst5]
    simp only
    rw [hcs, hst4]
    simp only
    rw [h3commits, hb2commits]
  have h6trees : st'.trees
      = (ts, overlay baseEntries entries) :: st.trees := by
    rw [hst6, hst5, hst4]
    simp only
    rw [hts, h3trees, hb2trees]
  have h6blobs : st'.blobs = st3.blobs := by
    rw [hst6, hst5, hst4]
  have h6next : st'.nextSha = st.nextSha + files.length + 2 := by
    rw [hst6, hst5, hst4]
    simp only
    rw [h3next, hb2next]
  have h6trace : st'.trace = st.trace ++
      ([Event.getRefEv branch c1, Event.getCommitEv c1 t1] ++
        blobEvents files entries ++
        [Event.createTreeEv t1 entries ts, Event.createCommitEv ts c1 c,
         Event.updateRefEv branch c]) := by
    rw [hst6, hst5, hst4]
    simp only
    rw [hcs, hst4]
    simp only
    rw [hts, h3trace, hb2trace]
    simp [List.append_assoc]
  have h3nextSt : st3.nextSha = st.nextSha + files.length := by
    rw [h3next, hb2next]
  have hcsval : c = st.nextSha + files.length + 1 := by
    rw [hcs, hst4]
    simp only
    omega
  have htsval : ts = st.nextSha + files.length := by
    rw [hts, h3nextSt]
  have hpres : ∀ k, k < st.nextSha → assoc st'.blobs k = assoc st.blobs k := by
    intro k hk
    rw [h6blobs, ← hb2blobs]
    exact h3pres k (by rw [hb2next]; exact hk)
  refine ⟨c1, t1, baseEntries, entries, ts, href, ?_, hbaseSt, ?_, h3mapfst,
    ?_, ?_, ?_, h6refs, ?_, hpres, by omega, ?_, h6trace⟩
  · exact ⟨co, by rw [← hb1commits]; exact hco, hcotree⟩
  · simp only [branchTree, href, ← hb1commits, hco, hcotree, hbaseSt]
  · refine h3fa.imp ?_
    rintro a b ⟨hb1, -, -, hb4⟩
    exact ⟨hb1, by rw [h6blobs]; exact hb4⟩
  · rw [h6trees]
    simp [assoc]
  · rw [h6commits]
    simp [assoc]
  · simp [branchTree, h6refs, assoc_setEntry_self, h6commits, h6trees, assoc]
  · -- WFSha of the final state
    have hentbound : ∀ e ∈ entries, e.2 < st3.nextSha := by
      intro e he
      obtain ⟨a, -, -, -, hb, -⟩ := forall₂_mem_right h3fa e he
      exact hb
    refine ⟨?_, ?_, ?_, ?_⟩
    · intro p hp
      rw [h6blobs] at hp
      have := h3bound p hp
      rw [h3nextSt] at this
      rw [h6next]
      omega
    · intro p hp
      rw [h6trees] at hp
      rcases List.mem_cons.1 hp with rfl | hp'
      · constructor
        · rw [h6next, htsval]; omega
        · intro e he
          rcases overlay_mem entries baseEntries e he with hb | hb
          · have hv := (hwftrees _ (assoc_mem _ _ _ hbaseSt)).2 e hb
            rw [h6next]; omega
          · have := hentbound e hb
            rw [h3nextSt] at this
            rw [h6next]; omega
      · have := hwftrees p hp'
        rw [h6next]
        exact ⟨by omega, fun e he => by have := this.2 e he; omega⟩
    · intro p hp
      rw [h6commits] at hp
      rcases List.mem_cons.1 hp with rfl | hp'
      · refine ⟨?_, ?_⟩
        · rw [h6next, hcsval]; omega
        · simp only
          rw [h6next, htsval]; omega
      · have := hwfcommits p hp'
        rw [h6next]
        exact ⟨by omega, by omega⟩
    · intro p hp
      rw [h6refs] at hp
      rcases setEntry_mem st.refs branch c p hp with hp' | rfl
      · have := hwfrefs p hp'
        rw [h6next]; omega
      · simp only
        rw [h6next, hcsval]; omega

theorem mem_zipWith {α β γ : Type} {f : α → β → γ} :
    ∀ {l₁ : List α} {l₂ : List β} {x : γ}, x ∈ List.zipWith f l₁ l₂ →
      ∃ a b, x = f a b := by
  intro l₁
  induction l₁ with
  | nil => intro l₂ x hx; simp at hx
  | cons a l ih =>
    intro l₂ x hx
    cases l₂ with
    | nil => simp at hx
    | cons b l' =>
      rw [List.zipWith_cons_cons] at hx
      rcases List.mem_cons.1 hx with rfl | hx'
      · exact ⟨a, b, rfl⟩
      · exact ih hx'

theorem blobEvents_filter_isUpdateRef (files : List FileEntry)
    (entries : List (String × Nat)) :
    (blobEvents files entries).filter Event.isUpdateRef = [] := by
  rw [List.filter_eq_nil_iff]
  intro ev hev
  obtain ⟨a, b, rfl⟩ := mem_zipWith hev
  simp [Event.isUpdateRef]

/-- C1: a successful multi-file publish moves the branch pointer exactly
once — the trace of the run contains a single `updateRefEv`, pointing the
branch at the returned commit — and that commit's tree makes every supplied
(path, content) pair visible while agreeing with the previous branch tree
on every other path.  No intermediate branch state is ever published. -/
theorem uploadMultipleFiles_atomic {oracle : Nat → Bool} {branch : String}
    {files : List FileEntry} {msg : String} {st : GitState} {c : Nat}
    {st' : GitState} (hwf : WFSha st)
    (hnd : (files.map FileEntry.path).Nodup)
    (h : uploadMultipleFiles oracle branch files msg st = (.ok c, st')) :
    ∃ evs, st'.trace = st.trace ++ evs ∧
      evs.filter Event.isUpdateRef = [Event.updateRefEv branch c] ∧
      assoc st'.refs branch = some c ∧
      ∃ old new, branchTree st branch = some old ∧
        branchTree st' branch = some new ∧
        (∀ f ∈ files, branchFile st' branch f.path = some f.content) ∧
        (∀ p, (∀ f ∈ files, f.path ≠ p) → assoc new p = assoc old p) := by
  obtain ⟨c1, t1, baseEntries, entries, ts, href, hstep2, hbase, hbt, hmapfst,
    hfa, htrees, hcommits, hrefs, hbt', hpres, hle, hwf', htrace⟩ :=
    uploadOk_spec hwf h
  refine ⟨_, htrace, ?_, ?_, baseEntries, overlay baseEntries entries,
    hbt, hbt', ?_, ?_⟩
  · simp [List.filter_append, blobEvents_filter_isUpdateRef,
      Event.isUpdateRef]
  · rw [hrefs]; exact assoc_setEntry_self _ _ _
  · intro f hf
    obtain ⟨e, he, he1, he2⟩ := forall₂_mem_left hfa f hf
    have hnd' : (entries.map Prod.fst).Nodup := by rw [hmapfst]; exact hnd
    have hmem : (f.path, e.2) ∈ entries := by
      have : e = (f.path, e.2) := by
        rw [← he1]
      rw [← this]
      exact he
    have hov : assoc (overlay baseEntries entries) f.path = some e.2 :=
      overlay_assoc_mem entries baseEntries f.path e.2 hnd' hmem
    simp only [branchFile, hbt', hov, he2]
  · intro p hp
    refine overlay_assoc_notmem entries baseEntries p ?_
    intro e he hep
    obtain ⟨f, hf, hrel⟩ := forall₂_mem_right hfa e he
    have hfp : f.path = p := by rw [← hrel.1]; exact hep
    exact hp f hf hfp

/-- C2: a successful `uploadMultipleFiles` performed the six Git Data API
steps in order, each consuming the previous step's result: resolve the
branch to its commit, resolve that commit to its tree, create one blob per
file payload, create a tree layering the blobs on the base tree, create a
commit whose sole parent is the step-1 commit and whose tree is the step-4
tree, and finally point the branch at that commit.  The trace equation
exhibits both the order of the calls and the data flow between them. -/
theorem uploadMultipleFiles_protocol {oracle : Nat → Bool} {branch : String}
    {files : List FileEntry} {msg : String} {st : GitState} {c : Nat}
    {st' : GitState} (hwf : WFSha st)
    (h : uploadMultipleFiles oracle branch files msg st = (.ok c, st')) :
    ∃ (c1 t1 : Nat) (baseEntries entries : List (String × Nat)) (ts : Nat),
      assoc st.refs branch = some c1 ∧
      (∃ co, assoc st.commits c1 = some co ∧ co.tree = t1) ∧
      assoc st.trees t1 = some baseEntries ∧
      entries.map Prod.fst = files.map FileEntry.path ∧
      List.Forall₂ (fun (f : FileEntry) (e : String × Nat) =>
        e.1 = f.path ∧ assoc st'.blobs e.2 = some f.content) files entries ∧
      assoc st'.trees ts = some (overlay baseEntries entries) ∧
      assoc st'.commits c = some ⟨ts, [c1], msg⟩ ∧
      st'.refs = setEntry st.refs branch c ∧
      st'.trace = st.trace ++
        ([Event.getRefEv branch c1, Event.getCommitEv c1 t1] ++
          blobEvents files entries ++
          [Event.createTreeEv t1 entries ts, Event.createCommitEv ts c1 c,
           Event.updateRefEv branch c]) := by
  obtain ⟨c1, t1, baseEntries, entries, ts, href, hstep2, hbase, hbt, hmapfst,
    hfa, htrees, hcommits, hrefs, hbt', hpres, hle, hwf', htrace⟩ :=
    uploadOk_spec hwf h
  exact ⟨c1, t1, baseEntries, entries, ts, href, hstep2, hbase, hmapfst, hfa,
    htrees, hcommits, hrefs, htrace⟩

theorem publishPropertySite_ok_inv {oracle : Nat → Bool} {cfg : Config}
    {slug html : String} {images : List ProcessedPhoto} {st : GitState}
    {r : String} {st' : GitState}
    (h : publishPropertySite oracle cfg slug html images st = (.ok r, st')) :
    ∃ c, uploadMultipleFiles oracle cfg.branch (publishFiles slug html images)
        ("Add property site: " ++ slug) st = (.ok c, st') := by
  unfold publishPropertySite at h
  rcases hu : uploadMultipleFiles oracle cfg.branch
      (publishFiles slug html images) ("Add property site: " ++ slug) st with
    ⟨ru, stu⟩
  rw [hu] at h
  cases ru with
  | error e => simp at h
  | ok cu =>
    cases h
    exact ⟨cu, rfl⟩

/-- C3 amended: after two successful publishes to the same slug, the second
publish's files replace the same-path entries of the branch tree, but a
file of the first publish whose path the second publish does not supply
stays visible (the `createTree` call layers new entries on the previous
tree via `base_tree`: overlay, not full replacement). -/
theorem publish_overlay_semantics {oracle1 oracle2 : Nat → Bool}
    {cfg : Config} {slug html1 html2 : String}
    {imgs1 imgs2 : List ProcessedPhoto} {st0 st1 st2 : GitState}
    {r1 r2 : String} (hwf : WFSha st0)
    (hnd2 : ((publishFiles slug html2 imgs2).map FileEntry.path).Nodup)
    (h1 : publishPropertySite oracle1 cfg slug html1 imgs1 st0 = (.ok r1, st1))
    (h2 : publishPropertySite oracle2 cfg slug html2 imgs2 st1 = (.ok r2, st2)) :
    (∀ f ∈ publishFiles slug html2 imgs2,
      branchFile st2 cfg.branch f.path = some f.content) ∧
    (∀ p, (∀ f ∈ publishFiles slug html2 imgs2, f.path ≠ p) →
      branchFile st2 cfg.branch p = branchFile st1 cfg.branch p) := by
  obtain ⟨cA, hA⟩ := publishPropertySite_ok_inv h1
  obtain ⟨cB, hB⟩ := publishPropertySite_ok_inv h2
  obtain ⟨-, -, -, -, -, -, -, -, -, -, -, -, -, -, -, -, -, hwf1, -⟩ :=
    uploadOk_spec hwf hA
  obtain ⟨c1B, t1B, base2, entries2, tsB, hrefB, hstep2B, hbaseB, hbtB,
    hmapB, hfaB, htreesB, hcommitsB, hrefsB, hbtB2, hpresB, hleB, hwf2,
    htraceB⟩ := uploadOk_spec hwf1 hB
  constructor
  · intro f hf
    obtain ⟨e, he, he1, he2⟩ := forall₂_mem_left hfaB f hf
    have hnd' : (entries2.map Prod.fst).Nodup := by rw [hmapB]; exact hnd2
    have hmem : (f.path, e.2) ∈ entries2 := by
      have : e = (f.path, e.2) := by rw [← he1]
      rw [← this]
      exact he
    have hov : assoc (overlay base2 entries2) f.path = some e.2 :=
      overlay_assoc_mem entries2 base2 f.path e.2 hnd' hmem
    simp only [branchFile, hbtB2, hov, he2]
  · intro p hp
    have hnotin : ∀ e ∈ entries2, e.1 ≠ p := by
      intro e he hep
      obtain ⟨f, hf, hrel⟩ := forall₂_mem_right hfaB e he
      have hfp : f.path = p := by rw [← hrel.1]; exact hep
      exact hp f hf hfp
    have hov : assoc (overlay base2 entries2) p = assoc base2 p :=
      overlay_assoc_notmem entries2 base2 p hnotin
    simp only [branchFile, hbtB2, hov, hbtB]
    cases hap : assoc base2 p with
    | none => rfl
    | some sha =>
      have hmem := assoc_mem _ _ _ hap
      have htb := assoc_mem _ _ _ hbaseB
      have hbound := (hwf1.2.1 _ htb).2 (p, sha) hmem
      exact hpresB sha hbound

theorem getRef_eval {branch : String} {st : GitState} {c1 : Nat}
    (h : assoc st.refs branch = some c1) :
    getRef false branch st = (.ok c1, stAfterGetRef st branch c1) := by
  simp [getRef, h]

theorem getRef_fail (branch : String) (st : GitState) :
    getRef true branch st = (.error .apiFailure, st) := rfl

theorem getCommit_eval {sha : Nat} {st : GitState} {co : CommitObj}
    (h : assoc st.commits sha = some co) :
    getCommit false sha st = (.ok co.tree, stAfterGetCommit st sha co.tree) := by
  simp [getCommit, h]

theorem getCommit_fail (sha : Nat) (st : GitState) :
    getCommit true sha st = (.error .apiFailure, st) := rfl

theorem createTree_eval {base : Nat} {st : GitState}
    {baseEntries : List (String × Nat)} (entries : List (String × Nat))
    (h : assoc st.trees base = some baseEntries) :
    createTree false base entries st
      = (.ok st.nextSha, stAfterCreateTree st base baseEntries entries) := by
  simp [createTree, h]

theorem createTree_fail (base : Nat) (entries : List (String × Nat))
    (st : GitState) : createTree true base entries st
      = (.error .apiFailure, st) := rfl

theorem createCommit_eval {tree : Nat} {st : GitState}
    {te : List (String × Nat)} (msg : String) (parent : Nat)
    (h : assoc st.trees tree = some te) :
    createCommit false msg tree parent st
      = (.ok st.nextSha, stAfterCreateCommit st msg tree parent) := by
  simp [createCommit, h]

theorem createCommit_fail (msg : String) (tree parent : Nat) (st : GitState) :
    createCommit true msg tree parent st = (.error .apiFailure, st) := rfl

theorem updateRef_fail (branch : String) (sha : Nat) (st : GitState) :
    updateRef true branch sha st = (.error .apiFailure, st) := rfl

/-- All blob calls succeed when no fault hits their index range. -/
theorem createBlobs_allOk (oracle : Nat → Bool) :
    ∀ (files : List FileEntry) (idx : Nat) (st : GitState),
      (∀ i, i < files.length → oracle (idx + i) = false) →
      ∃ entries st', createBlobs oracle idx files st = (.ok entries, st') := by
  intro files
  induction files with
  | nil => intro idx st _; exact ⟨[], st, rfl⟩
  | cons f rest ih =>
    intro idx st h
    have h0 : oracle idx = false := by simpa using h 0 (by simp)
    obtain ⟨es, st2, hrec⟩ := ih (idx + 1)
      { st with blobs := (st.nextSha, f.content) :: st.blobs,
                nextSha := st.nextSha + 1,
                trace := st.trace ++ [.createBlobEv f.content st.nextSha] }
      (fun i hi => by
        rw [show idx + 1 + i = idx + (i + 1) from by omega]
        exact h (i + 1) (by simp only [List.length_cons]; omega))
    refine ⟨(f.path, st.nextSha) :: es, st2, ?_⟩
    simp [createBlobs, createBlob, h0, hrec]

/-- The blob step under a single injected fault: the whole step reports the
rejection, every other blob call still completes (their blobs stay in the
store), and no tree, commit or ref is touched. -/
theorem createBlobs_fault (oracle : Nat → Bool) :
    ∀ (files : List FileEntry) (idx k : Nat) (st : GitState),
      k < files.length → oracle (idx + k) = true →
      (∀ i, i < files.length → i ≠ k → oracle (idx + i) = false) →
      (∀ p ∈ st.blobs, p.1 < st.nextSha) →
      ∃ st', createBlobs oracle idx files st = (.error .apiFailure, st') ∧
        st'.refs = st.refs ∧ st'.trees = st.trees ∧
        st'.commits = st.commits ∧
        (∃ bs, st'.blobs = bs ++ st.blobs) ∧
        (∃ evs, st'.trace = st.trace ++ evs ∧
          evs.length = files.length - 1 ∧
          (∀ ev ∈ evs, ∃ co sh, ev = Event.createBlobEv co sh)) := by
  intro files
  induction files with
  | nil => intro idx k st hk; cases hk
  | cons f rest ih =>
    intro idx k st hk hfault hrest hkeys
    cases k with
    | zero =>
      have h0 : oracle idx = true := by simpa using hfault
      obtain ⟨es, st2, hrec⟩ := createBlobs_allOk oracle rest (idx + 1) st
        (fun i hi => by
          rw [show idx + 1 + i = idx + (i + 1) from by omega]
          exact hrest (i + 1) (by simp only [List.length_cons]; omega)
            (Nat.succ_ne_zero i))
      obtain ⟨hrefs, htrees, hcommits, -, -, -, hmapfst, -, htrace, bs, hbs⟩ :=
        createBlobs_ok_inv oracle rest (idx + 1) st es st2 hrec hkeys
      have hlen : es.length = rest.length := by
        have := congrArg List.length hmapfst
        simpa using this
      refine ⟨st2, ?_, hrefs, htrees, hcommits, ⟨bs, hbs⟩,
        ⟨blobEvents rest es, htrace, ?_, ?_⟩⟩
      · simp [createBlobs, createBlob, h0, hrec]
      · simp [blobEvents, hlen]
      · intro ev hev
        obtain ⟨a, b, rfl⟩ := mem_zipWith hev
        exact ⟨a.content, b.2, rfl⟩
    | succ k' =>
      have h0 : oracle idx = false := by
        simpa using hrest 0 (by simp) (by omega)
      have hk' : k' < rest.length := by
        simp only [List.length_cons] at hk
        omega
      have hfault' : oracle (idx + 1 + k') = true := by
        rw [show idx + 1 + k' = idx + (k' + 1) from by omega]
        exact hfault
      have hrest' : ∀ i, i < rest.length → i ≠ k' →
          oracle (idx + 1 + i) = false := by
        intro i hi hik
        rw [show idx + 1 + i = idx + (i + 1) from by omega]
        exact hrest (i + 1) (by simp only [List.length_cons]; omega) (by omega)
      have hkeys1 : ∀ p ∈ (st.nextSha, f.content) :: st.blobs,
          p.1 < st.nextSha + 1 := by
        intro p hp
        rcases List.mem_cons.1 hp with rfl | hp'
        · exact Nat.lt_succ_self _
        · exact Nat.lt_succ_of_lt (hkeys p hp')
      obtain ⟨st2, hrec, hrefs, htrees, hcommits, ⟨bs, hbs⟩, evs, hevs, hlen,
        hkind⟩ :=
        ih (idx + 1) k'
          { st with blobs := (st.nextSha, f.content) :: st.blobs,
                    nextSha := st.nextSha + 1,
                    trace := st.trace ++ [.createBlobEv f.content st.nextSha] }
          hk' hfault' hrest' hkeys1
      simp only at hrefs htrees hcommits hbs hevs
      refine ⟨st2, ?_, hrefs, htrees, hcommits, ?_, ?_⟩
      · simp [createBlobs, createBlob, h0, hrec]
      · exact ⟨bs ++ [(st.nextSha, f.content)], by rw [hbs]; simp⟩
      · refine ⟨Event.createBlobEv f.content st.nextSha :: evs, ?_, ?_, ?_⟩
        · rw [hevs]; simp
        · simp only [List.length_cons] at hlen ⊢
          omega
        · intro ev hev
          rcases List.mem_cons.1 hev with rfl | hev'
          · exact ⟨f.content, st.nextSha, rfl⟩
          · exact hkind ev hev'

/-- Single-fault run of `uploadMultipleFiles`: when the `j`-th API call of
the operation rejects (all others would succeed), the operation returns
that error, the branch pointer is untouched, every object created by a
completed call stays in the store (nothing is deleted), and the trace shows
exactly the completed calls — no protocol step after the failing one ran
and no branch update ever occurred. -/
theorem uploadFault_spec {oracle : Nat → Bool} (j : Nat) {branch : String}
    {files : List FileEntry} {msg : String} {st : GitState}
    (hwf : WFSha st) (hreach : ReachableOk st branch)
    (hfj : oracle j = true) (hother : ∀ i, i ≠ j → oracle i = false)
    (hj : j ≤ 4 + files.length) :
    ∃ st', uploadMultipleFiles oracle branch files msg st
        = (.error .apiFailure, st') ∧
      st'.refs = st.refs ∧
      (∃ bs, st'.blobs = bs ++ st.blobs) ∧
      (∃ trs, st'.trees = trs ++ st.trees) ∧
      (∃ cms, st'.commits = cms ++ st.commits) ∧
      (∃ evs, st'.trace = st.trace ++ evs ∧
        evs.length = expectedCalls j files.length ∧
        (∀ ev ∈ evs, ev.isUpdateRef = false)) := by
  have hreach' := hreach
  unfold ReachableOk branchTree at hreach'
  rcases hc1 : assoc st.refs branch with _ | c1
  · rw [hc1] at hreach'; simp at hreach'
  rcases hco : assoc st.commits c1 with _ | co
  · rw [hc1] at hreach'
    simp only at hreach'
    rw [hco] at hreach'
    simp at hreach'
  rcases hbe : assoc st.trees co.tree with _ | baseE
  · rw [hc1] at hreach'
    simp only at hreach'
    rw [hco] at hreach'
    simp only at hreach'
    rw [hbe] at hreach'
    simp at hreach'
  clear hreach hreach'
  by_cases hj0 : j = 0
  · subst hj0
    refine ⟨st, ?_, rfl, ⟨[], rfl⟩, ⟨[], rfl⟩, ⟨[], rfl⟩,
      ⟨[], by simp, by simp [expectedCalls], by simp⟩⟩
    unfold uploadMultipleFiles
    rw [hfj, getRef_fail]
  by_cases hj1 : j = 1
  · subst hj1
    refine ⟨stAfterGetRef st branch c1, ?_, rfl, ⟨[], rfl⟩, ⟨[], rfl⟩,
      ⟨[], rfl⟩, ⟨[Event.getRefEv branch c1], rfl,
        by simp [expectedCalls], by simp [Event.isUpdateRef]⟩⟩
    unfold uploadMultipleFiles
    rw [hother 0 (by omega), getRef_eval hc1]
    dsimp only
    rw [hfj, getCommit_fail]
  have e0 : oracle 0 = false := hother 0 (by omega)
  have e1 : oracle 1 = false := hother 1 (by omega)
  by_cases hjb : j < 2 + files.length
  · -- the failing call is blob number j - 2
    obtain ⟨st3, hrec, hrefs, htrees, hcommits, ⟨bs, hbs⟩, evs, hevs, hlen,
      hkind⟩ :=
      createBlobs_fault oracle files 2 (j - 2)
        (stAfterGetCommit (stAfterGetRef st branch c1) c1 co.tree)
        (by omega)
        (by rw [show 2 + (j - 2) = j from by omega]; exact hfj)
        (fun i hi hik => hother (2 + i) (by omega))
        (fun p hp => hwf.1 p hp)
    refine ⟨st3, ?_, hrefs, ⟨bs, hbs⟩, ⟨[], htrees⟩, ⟨[], hcommits⟩,
      ⟨Event.getRefEv branch c1 :: Event.getCommitEv c1 co.tree :: evs,
        ?_, ?_, ?_⟩⟩
    · unfold uploadMultipleFiles
      rw [e0, getRef_eval hc1]
      dsimp only
      rw [e1, @getCommit_eval c1 (stAfterGetRef st branch c1) co hco]
      dsimp only
      rw [hrec]
    · rw [hevs]
      simp [stAfterGetRef, stAfterGetCommit]
    · have hv : expectedCalls j files.length = 1 + files.length := by
        unfold expectedCalls
        rw [if_neg (by omega), if_pos hjb]
      rw [hv]
      simp only [List.length_cons, hlen]
      omega
    · intro ev hev
      rcases List.mem_cons.1 hev with rfl | hev'
      · rfl
      rcases List.mem_cons.1 hev' with rfl | hev''
      · rfl
      obtain ⟨a, b, rfl⟩ := hkind ev hev''
      rfl
  -- from here on all blob calls succeed
  obtain ⟨es, st3, hrec⟩ := createBlobs_allOk oracle files 2
    (stAfterGetCommit (stAfterGetRef st branch c1) c1 co.tree)
    (fun i hi => hother (2 + i) (by omega))
  obtain ⟨h3refs, h3trees, h3commits, h3next, -, -, h3mapfst, -, h3trace,
    bs, hbs⟩ :=
    createBlobs_ok_inv oracle files 2
      (stAfterGetCommit (stAfterGetRef st branch c1) c1 co.tree) es st3 hrec
      (fun p hp => hwf.1 p hp)
  have heslen : es.length = files.length := by
    have := congrArg List.length h3mapfst
    simpa using this
  have hbloblen : (blobEvents files es).length = files.length := by
    simp [blobEvents, heslen]
  by_cases hjt : j = 2 + files.length
  · subst hjt
    refine ⟨st3, ?_, h3refs, ⟨bs, hbs⟩, ⟨[], h3trees⟩, ⟨[], h3commits⟩,
      ⟨Event.getRefEv branch c1 :: Event.getCommitEv c1 co.tree ::
        blobEvents files es, ?_, ?_, ?_⟩⟩
    · unfold uploadMultipleFiles
      rw [e0, getRef_eval hc1]
      dsimp only
      rw [e1, @getCommit_eval c1 (stAfterGetRef st branch c1) co hco]
      dsimp only
      rw [hrec]
      dsimp only
      rw [hfj, createTree_fail]
    · rw [h3trace]
      simp [stAfterGetRef, stAfterGetCommit]
    · have hv : expectedCalls (2 + files.length) files.length
          = 2 + files.length := by
        unfold expectedCalls
        rw [if_neg (by omega), if_neg (by omega)]
      rw [hv]
      simp only [List.length_cons, hbloblen]
      omega
    · intro ev hev
      rcases List.mem_cons.1 hev with rfl | hev'
      · rfl
      rcases List.mem_cons.1 hev' with rfl | hev''
      · rfl
      obtain ⟨a, b, rfl⟩ := mem_zipWith hev''
      rfl
  have hbe3 : assoc st3.trees co.tree = some baseE := by
    rw [h3trees]; exact hbe
  by_cases hjc : j = 3 + files.length
  · subst hjc
    refine ⟨stAfterCreateTree st3 co.tree baseE es, ?_, h3refs, ⟨bs, hbs⟩,
      ⟨[(st3.nextSha, overlay baseE es)],
        by simp [stAfterCreateTree, stAfterGetCommit, stAfterGetRef, h3trees]⟩,
      ⟨[], h3commits⟩,
      ⟨Event.getRefEv branch c1 :: Event.getCommitEv c1 co.tree ::
        (blobEvents files es ++ [Event.createTreeEv co.tree es st3.nextSha]),
        ?_, ?_, ?_⟩⟩
    · unfold uploadMultipleFiles
      rw [e0, getRef_eval hc1]
      dsimp only
      rw [e1, @getCommit_eval c1 (stAfterGetRef st branch c1) co hco]
      dsimp only
      rw [hrec]
      dsimp only
      rw [hother (2 + files.length) (by omega), createTree_eval es hbe3]
      dsimp only
      rw [hfj, createCommit_fail]
    · simp only [stAfterCreateTree]
      rw [h3trace]
      simp [stAfterGetRef, stAfterGetCommit]
    · have hv : expectedCalls (3 + files.length) files.length
          = 3 + files.length := by
        unfold expectedCalls
        rw [if_neg (by omega), if_neg (by omega)]
      rw [hv]
      simp only [List.length_cons, List.length_append, List.length_nil,
        hbloblen]
      omega
    · intro ev hev
      rcases List.mem_cons.1 hev with rfl | hev'
      · rfl
      rcases List.mem_cons.1 hev' with rfl | hev''
      · rfl
      rcases List.mem_append.1 hev'' with hb | hb
      · obtain ⟨a, b, rfl⟩ := mem_zipWith hb
        rfl
      · rcases List.mem_singleton.1 hb with rfl
        rfl
  have hj4 : j = 4 + files.length := by omega
  subst hj4
  have htree4 : assoc (stAfterCreateTree st3 co.tree baseE es).trees
      st3.nextSha = some (overlay baseE es) := by
    simp [stAfterCreateTree, assoc]
  refine ⟨stAfterCreateCommit (stAfterCreateTree st3 co.tree baseE es) msg
      st3.nextSha c1, ?_, h3refs, ⟨bs, hbs⟩,
    ⟨[(st3.nextSha, overlay baseE es)],
      by simp [stAfterCreateCommit, stAfterCreateTree, stAfterGetCommit,
        stAfterGetRef, h3trees]⟩,
    ⟨[(st3.nextSha + 1, (⟨st3.nextSha, [c1], msg⟩ : CommitObj))], ?_⟩,
    ⟨Event.getRefEv branch c1 :: Event.getCommitEv c1 co.tree ::
      (blobEvents files es ++ [Event.createTreeEv co.tree es st3.nextSha,
        Event.createCommitEv st3.nextSha c1 (st3.nextSha + 1)]),
      ?_, ?_, ?_⟩⟩
  · unfold uploadMultipleFiles
    rw [e0, getRef_eval hc1]
    dsimp only
    rw [e1, @getCommit_eval c1 (stAfterGetRef st branch c1) co hco]
    dsimp only
    rw [hrec]
    dsimp only
    rw [hother (2 + files.length) (by omega), createTree_eval es hbe3]
    dsimp only
    rw [hother (3 + files.length) (by omega), createCommit_eval msg c1 htree4]
    dsimp only
    rw [hfj, updateRef_fail]
  · simp [stAfterCreateCommit, stAfterCreateTree, stAfterGetCommit,
      stAfterGetRef, h3commits]
  · simp only [stAfterCreateCommit, stAfterCreateTree]
    rw [h3trace]
    simp [stAfterGetRef, stAfterGetCommit]
  · have hv : expectedCalls (4 + files.length) files.length
        = 4 + files.length := by
      unfold expectedCalls
      rw [if_neg (by omega), if_neg (by omega)]
    rw [hv]
    simp only [List.length_cons, List.length_append, List.length_nil,
      hbloblen]
    omega
  · intro ev hev
    rcases List.mem_cons.1 hev with rfl | hev'
    · rfl
    rcases List.mem_cons.1 hev' with rfl | hev''
    · rfl
    rcases List.mem_append.1 hev'' with hb | hb
    · obtain ⟨a, b, rfl⟩ := mem_zipWith hb
      rfl
    · rcases List.mem_cons.1 hb with rfl | hb2
      · rfl
      · rw [List.mem_singleton.1 hb2]
        rfl

/-- C4: when any protocol step of a multi-file publish fails, the whole
operation aborts at that step: the error propagates unchanged (and the
`/api/generate` route turns it into a structured `success:false` payload),
no protocol step after the failing call runs — the trace contains exactly
the completed calls and never a branch update — the branch pointer is left
where it was, and no compensating deletion of already-created blobs or
trees is attempted: the stores only ever grow. -/
theorem uploadMultipleFiles_failure_policy :
    (∀ (oracle : Nat → Bool) (j : Nat) (branch : String)
      (files : List FileEntry) (msg : String) (st : GitState),
      WFSha st → ReachableOk st branch →
      oracle j = true → (∀ i, i ≠ j → oracle i = false) →
      j ≤ 4 + files.length →
      ∃ st', uploadMultipleFiles oracle branch files msg st
          = (.error .apiFailure, st') ∧
        st'.refs = st.refs ∧
        (∃ bs, st'.blobs = bs ++ st.blobs) ∧
        (∃ trs, st'.trees = trs ++ st.trees) ∧
        (∃ cms, st'.commits = cms ++ st.commits) ∧
        (∃ evs, st'.trace = st.trace ++ evs ∧
          evs.length = expectedCalls j files.length ∧
          (∀ ev ∈ evs, ev.isUpdateRef = false))) ∧
    (∀ (oracle : Nat → Bool) (j : Nat) (cfg : Config)
      (disk : List (String × String)) (data : Json) (st : GitState),
      cfg.token = true → missingFields data = [] → photosArr data = [] →
      WFSha st → ReachableOk st cfg.branch →
      oracle j = true → (∀ i, i ≠ j → oracle i = false) → j ≤ 5 →
      ∃ st', handleGenerate cfg oracle disk data st
          = (.serverError "API failure", st')) := by
  constructor
  · intro oracle j branch files msg st hwf hreach hfj hother hj
    exact uploadFault_spec j hwf hreach hfj hother hj
  · intro oracle j cfg disk data st htok hmiss hph hwf hreach hfj hother hj
    have hphots : processPhotos disk (photosArr data) = [] := by
      rw [hph]; rfl
    simp only [handleGenerate, hmiss, hphots, htok, List.length_nil,
      gt_iff_lt, lt_irrefl, if_false, List.filter_nil, publishPropertySite]
    obtain ⟨stF, hmain, -, -, -, -, -⟩ :=
      @uploadFault_spec oracle j cfg.branch
        (publishFiles
          (buildSlug (jstr (getPath (some data) ["property", "address"]))
            (jstr (getPath (some data) ["property", "city"])))
          (generatePropertyHTML data []
            (buildSlug (jstr (getPath (some data) ["property", "address"]))
              (jstr (getPath (some data) ["property", "city"])))) [])
        ("Add property site: " ++
          buildSlug (jstr (getPath (some data) ["property", "address"]))
            (jstr (getPath (some data) ["property", "city"]))) st
        hwf hreach hfj hother (by simp [publishFiles]; omega)
    refine ⟨stF, ?_⟩
    rw [hmain]
    simp [GitError.message]

/-- C3 counterexample: two successful publishes to slug `s`; the second
publish's file set omits the image, yet the image file of the first publish
is still visible under `properties/s/` afterwards — the second publish does
not fully supersede the first. -/
theorem publish_supersede_counterexample :
    (publishPropertySite (fun _ => false) cexCfg "s" "h1" [cexPhoto] cexSt0).1
      = .ok "https://owner.github.io/LuminateSPS/properties/s/" ∧
    (publishPropertySite (fun _ => false) cexCfg "s" "h2" [] cexSt1).1
      = .ok "https://owner.github.io/LuminateSPS/properties/s/" ∧
    (∀ f ∈ publishFiles "s" "h2" [],
      f.path ≠ "properties/s/images/photo-1.png") ∧
    branchFile cexSt2 "main" "properties/s/images/photo-1.png"
      = some "IMGDATA" := by
  refine ⟨by decide, by decide, by decide, by decide⟩

/-- C5: evaluating the deleter at a site that has a nested image directory
(the layout every photo-carrying publish produces, see `cexSt1`).  The code
lists only the immediate children of `properties/s` and issues one remove
call per listed entry; the remove call on the `images` directory entry
fails, the nested image file is never enumerated — no remove call for it
appears in the trace — and it remains present, while the already-deleted
page stays deleted; the error is surfaced as the route's failure payload
and nothing is retried or cleaned up. -/
theorem deletePropertySite_nested_failure :
    branchFile cexSt1 "main" "properties/s/index.html" = some "h1" ∧
    branchFile cexSt1 "main" "properties/s/images/photo-1.png"
      = some "IMGDATA" ∧
    (deletePropertySite cexCfg "s" cexSt1).1 = .error .notFound ∧
    branchFile (deletePropertySite cexCfg "s" cexSt1).2 "main"
      "properties/s/index.html" = none ∧
    branchFile (deletePropertySite cexCfg "s" cexSt1).2 "main"
      "properties/s/images/photo-1.png" = some "IMGDATA" ∧
    ((deletePropertySite cexCfg "s" cexSt1).2.trace.drop
        cexSt1.trace.length
      = [Event.getContentEv "properties/s",
         Event.deleteFileEv "properties/s/index.html" true,
         Event.deleteFileEv "properties/s/images" false]) ∧
    (∀ ev ∈ (deletePropertySite cexCfg "s" cexSt1).2.trace,
      ev ≠ Event.deleteFileEv "properties/s/images/photo-1.png" true ∧
      ev ≠ Event.deleteFileEv "properties/s/images/photo-1.png" false) ∧
    handleDeleteProperty cexCfg "s" cexSt1
      = (.serverError "Not Found", (deletePropertySite cexCfg "s" cexSt1).2) := by
  refine ⟨by decide, by decide, by decide, by decide, by decide, by decide,
    by decide, by decide⟩

/-- C6: a request missing at least one required field is answered with the
`success:false` validation payload carrying the complete list of missing
field names, the state — including the trace of remote API calls — is
untouched (the request is rejected before any hosting-API call), and every
required field whose value fails the truthiness test is in the list. -/
theorem generate_validation_rejects {cfg : Config} {oracle : Nat → Bool}
    {disk : List (String × String)} {data : Json} {st : GitState}
    (h : missingFields data ≠ []) :
    handleGenerate cfg oracle disk data st
      = (.validationError "Missing required fields" (missingFields data), st) ∧
    (handleGenerate cfg oracle disk data st).2.trace = st.trace ∧
    (∀ f ∈ requiredFields,
      truthy (getPath (some data) (splitPath f '.')) = false
      → f ∈ missingFields data) := by
  have hpos : 0 < (missingFields data).length := List.length_pos.2 h
  have hmain : handleGenerate cfg oracle disk data st
      = (.validationError "Missing required fields" (missingFields data), st) := by
    unfold handleGenerate
    rw [if_pos hpos]
  refine ⟨hmain, by rw [hmain], ?_⟩
  intro f hf hfail
  unfold missingFields
  rw [List.mem_filter]
  exact ⟨hf, by rw [hfail]; rfl⟩

/-- C7: the validation loop checks `!value`, and in JavaScript `!0` is
`true`, so a request in which every required field is present but `price`
is the valid value `0` is rejected: `property.price` is reported missing
and the route answers with the validation failure instead of publishing.
Evaluation of the code at the failing input. -/
theorem generate_zero_price_rejected :
    missingFields (genData 0) = ["property.price"] ∧
    missingFields (genData 500000) = [] ∧
    handleGenerate cexCfg (fun _ => false) [] (genData 0) cexSt0
      = (.validationError "Missing required fields" ["property.price"],
         cexSt0) := by
  refine ⟨by decide, by decide, by decide⟩

theorem childItem_name (entries : List (String × Nat))
    (dirParts : List String) (name : String) :
    (childItem entries dirParts name).name = name := by
  unfold childItem
  dsimp only
  rcases h : assoc entries (joinPath (dirParts ++ [name])) with _ | sha <;>
    simp [h]

theorem getContent_dir_inv {branch path : String} {st : GitState}
    {items : List ContentItem} {stc : GitState}
    (h : getContent branch path st = (.ok (.dir items), stc)) :
    ∃ entries, branchTree st branch = some entries ∧
      assoc entries path = none ∧
      items = (childNames entries (splitPath path '/')).map
        (childItem entries (splitPath path '/')) := by
  unfold getContent at h
  rcases hbt : branchTree st branch with _ | entries
  · rw [hbt] at h; simp at h
  rw [hbt] at h
  dsimp only at h
  rcases hap : assoc entries path with _ | sha
  · rw [hap] at h
    dsimp only at h
    by_cases hie : (childNames entries (splitPath path '/')).isEmpty
    · rw [if_pos hie] at h; simp at h
    · rw [if_neg hie] at h
      cases h
      exact ⟨entries, rfl, hap, rfl⟩
  · rw [hap] at h
    simp at h

/-- C8: listing sites when the top-level `properties/` path is absent from
the hosted repository (the API answers 404) yields a successful empty list,
not an error, both at the publisher and at the `GET /api/properties` route;
and on any successful listing, every returned record is a directory child
of `properties/`, carrying its name as the slug and the derived pages URL. -/
theorem listPropertySites_spec :
    (∀ (cfg : Config) (st : GitState) (entries : List (String × Nat)),
      cfg.token = true →
      branchTree st cfg.branch = some entries →
      assoc entries "properties" = none →
      childNames entries (splitPath "properties" '/') = [] →
      listPropertySites cfg st = (.ok [], st) ∧
      handleListProperties cfg st = (.listOk [], st)) ∧
    (∀ (cfg : Config) (st : GitState) (props : List SiteRef)
      (st' : GitState),
      listPropertySites cfg st = (.ok props, st') →
      ∀ r ∈ props, ∃ entries name,
        branchTree st cfg.branch = some entries ∧
        name ∈ childNames entries (splitPath "properties" '/') ∧
        (childItem entries (splitPath "properties" '/') name).itemType
          = .dir ∧
        r = ⟨name, cfg.pagesBaseUrl ++ "/properties/" ++ name ++ "/"⟩) := by
  constructor
  · intro cfg st entries htok hbt hnone hchild
    have hgc : getContent cfg.branch "properties" st = (.error .notFound, st) := by
      unfold getContent
      rw [hbt]
      dsimp only
      rw [hnone]
      dsimp only
      rw [hchild]
      rfl
    have hlist : listPropertySites cfg st = (.ok [], st) := by
      unfold listPropertySites
      rw [hgc]
    refine ⟨hlist, ?_⟩
    unfold handleListProperties
    rw [htok]
    rw [hlist]
    rfl
  · intro cfg st props st' h r hr
    unfold listPropertySites at h
    rcases hgc : getContent cfg.branch "properties" st with ⟨rc, stc⟩
    rw [hgc] at h
    cases rc with
    | error e =>
      cases e
      · cases h; cases hr
      · simp at h
    | ok cr =>
      cases cr with
      | file item => cases h; cases hr
      | dir items =>
        cases h
        obtain ⟨entries, hbt, hnone, rfl⟩ := getContent_dir_inv hgc
        rw [List.mem_map] at hr
        obtain ⟨item, hitem, rfl⟩ := hr
        rw [List.mem_filter] at hitem
        obtain ⟨hitem_mem, hdir⟩ := hitem
        rw [List.mem_map] at hitem_mem
        obtain ⟨name, hname, rfl⟩ := hitem_mem
        refine ⟨entries, name, hbt, hname, by simpa using hdir, ?_⟩
        rw [childItem_name]

theorem slugCharMap_safe {c c' : Char} (h : slugCharMap c = some c') :
    c'.isLower = true ∨ c'.isDigit = true := by
  unfold slugCharMap at h
  by_cases hd : c.isDigit = true
  · rw [if_pos hd] at h
    cases h
    right; exact hd
  rw [if_neg hd] at h
  by_cases hl : c.isLower = true
  · rw [if_pos hl] at h
    cases h
    left; exact hl
  rw [if_neg hl] at h
  rcases hf : upperTable.find? (fun p => p.1 = c) with _ | p
  · rw [hf] at h; simp at h
  · rw [hf] at h
    simp at h
    subst h
    have hmem := List.mem_of_find?_eq_some hf
    have hall : ∀ q ∈ upperTable, q.2.isLower = true := by decide
    left; exact hall p hmem

theorem slugFold_safe : ∀ (cs acc : List Char),
    (∀ x ∈ acc, x = '-' ∨ x.isLower = true ∨ x.isDigit = true) →
    ∀ x ∈ cs.foldl slugStep acc,
      x = '-' ∨ x.isLower = true ∨ x.isDigit = true := by
  intro cs
  induction cs with
  | nil => intro acc hacc x hx; exact hacc x hx
  | cons c rest ih =>
    intro acc hacc x hx
    rw [List.foldl_cons] at hx
    refine ih _ ?_ x hx
    intro y hy
    unfold slugStep at hy
    by_cases hsp : c = ' '
    · rw [if_pos hsp] at hy
      by_cases hh : acc = [] ∨ acc.head? = some '-'
      · rw [if_pos hh] at hy
        exact hacc y hy
      · rw [if_neg hh] at hy
        rcases List.mem_cons.1 hy with rfl | hy'
        · left; rfl
        · exact hacc y hy'
    · rw [if_neg hsp] at hy
      rcases hm : slugCharMap c with _ | c'
      · rw [hm] at hy
        exact hacc y hy
      · rw [hm] at hy
        rcases List.mem_cons.1 hy with rfl | hy'
        · right; exact slugCharMap_safe hm
        · exact hacc y hy'

theorem slugify_chars (s : String) :
    ∀ ch ∈ (slugify s).data,
      ch = '-' ∨ ch.isLower = true ∨ ch.isDigit = true := by
  intro ch hch
  unfold slugify at hch
  dsimp only at hch
  rw [List.mem_reverse] at hch
  have hch' := (List.dropWhile_sublist (fun c => c = '-')).subset hch
  exact slugFold_safe _ [] (by intro x hx; cases hx) ch hch'

/-- C9: the slug builder — `slugify(address + "-" + city)` with
`lower: true, strict: true` — is a pure function, so two calls on the same
input give the same output, and every character of the output is a
lowercase letter, a digit, or the hyphen separator: the output is
lowercase, hyphen-separated, URL-safe, with punctuation stripped. -/
theorem buildSlug_spec :
    (∀ a c : String, buildSlug a c = buildSlug a c) ∧
    (∀ a c : String, ∀ ch ∈ (buildSlug a c).data,
      ch = '-' ∨ ch.isLower = true ∨ ch.isDigit = true) := by
  refine ⟨fun a c => rfl, ?_⟩
  intro a c ch hch
  exact slugify_chars _ ch hch

theorem photoStep_skip {disk : List (String × String)}
    {acc : List ProcessedPhoto} {x : Json}
    (hu : truthy (jget x "url") = false)
    (hp : truthy (jget x "path") = true)
    (hd : assoc disk (jstr (jget x "path")) = none) :
    photoStep disk acc x = acc := by
  unfold photoStep
  rw [hu, if_neg (by simp), hp, if_pos rfl, hd]

theorem updateRef_eval {branch : String} {sha : Nat} {st : GitState}
    {co : CommitObj} (h : assoc st.commits sha = some co) :
    updateRef false branch sha st
      = (.ok (), { st with refs := setEntry st.refs branch sha,
                           trace := st.trace ++ [.updateRefEv branch sha] }) := by
  simp [updateRef, h]

/-- When no network call fails and the branch is resolvable, the six-step
upload succeeds. -/
theorem upload_allOk {oracle : Nat → Bool} {branch : String}
    (files : List FileEntry) (msg : String) {st : GitState}
    (hwf : WFSha st) (hreach : ReachableOk st branch)
    (hok : ∀ i, oracle i = false) :
    ∃ c st', uploadMultipleFiles oracle branch files msg st = (.ok c, st') := by
  have hreach' := hreach
  unfold ReachableOk branchTree at hreach'
  rcases hc1 : assoc st.refs branch with _ | c1
  · rw [hc1] at hreach'; simp at hreach'
  rcases hco : assoc st.commits c1 with _ | co
  · rw [hc1] at hreach'
    simp only at hreach'
    rw [hco] at hreach'
    simp at hreach'
  rcases hbe : assoc st.trees co.tree with _ | baseE
  · rw [hc1] at hreach'
    simp only at hreach'
    rw [hco] at hreach'
    simp only at hreach'
    rw [hbe] at hreach'
    simp at hreach'
  clear hreach hreach'
  obtain ⟨es, st3, hrec⟩ := createBlobs_allOk oracle files 2
    (stAfterGetCommit (stAfterGetRef st branch c1) c1 co.tree)
    (fun i _ => hok (2 + i))
  obtain ⟨h3refs, h3trees, h3commits, h3next, -, -, -, -, -, -⟩ :=
    createBlobs_ok_inv oracle files 2
      (stAfterGetCommit (stAfterGetRef st branch c1) c1 co.tree) es st3 hrec
      (fun p hp => hwf.1 p hp)
  have hbe3 : assoc st3.trees co.tree = some baseE := by
    rw [h3trees]; exact hbe
  have htree4 : assoc (stAfterCreateTree st3 co.tree baseE es).trees
      st3.nextSha = some (overlay baseE es) := by
    simp [stAfterCreateTree, assoc]
  have hcommit5 : assoc (stAfterCreateCommit
        (stAfterCreateTree st3 co.tree baseE es) msg st3.nextSha c1).commits
      (stAfterCreateTree st3 co.tree baseE es).nextSha
      = some ⟨st3.nextSha, [c1], msg⟩ := by
    simp [stAfterCreateCommit, stAfterCreateTree, assoc]
  unfold uploadMultipleFiles
  rw [hok 0, getRef_eval hc1]
  dsimp only
  rw [hok 1, @getCommit_eval c1 (stAfterGetRef st branch c1) co hco]
  dsimp only
  rw [hrec]
  dsimp only
  rw [hok (2 + files.length), createTree_eval es hbe3]
  dsimp only
  rw [hok (3 + files.length), createCommit_eval msg c1 htree4]
  dsimp only
  rw [hok (4 + files.length), updateRef_eval hcommit5]
  exact ⟨_, _, rfl⟩

/-- C10: a locally uploaded photo whose file cannot be read from disk is
silently dropped by the photo-processing loop — the result is exactly the
result without that photo, numbering included — and a valid request whose
photos all fail to read still publishes the site (without those photos)
with a success response; no error about the skipped photos is surfaced. -/
theorem generate_photo_read_failure_skipped :
    (∀ (disk : List (String × String)) (pre post : List Json) (x : Json),
      truthy (jget x "url") = false → truthy (jget x "path") = true →
      assoc disk (jstr (jget x "path")) = none →
      processPhotos disk (pre ++ x :: post)
        = processPhotos disk (pre ++ post)) ∧
    (∀ (cfg : Config) (oracle : Nat → Bool) (disk : List (String × String))
      (data : Json) (st : GitState),
      cfg.token = true → missingFields data = [] →
      WFSha st → ReachableOk st cfg.branch →
      (∀ i, oracle i = false) →
      (∀ x ∈ photosArr data, truthy (jget x "url") = false ∧
        truthy (jget x "path") = true ∧
        assoc disk (jstr (jget x "path")) = none) →
      ∃ st', handleGenerate cfg oracle disk data st
        = (.publishedOk
            (cfg.pagesBaseUrl ++ "/properties/" ++
              buildSlug (jstr (getPath (some data) ["property", "address"]))
                (jstr (getPath (some data) ["property", "city"])) ++ "/")
            (buildSlug (jstr (getPath (some data) ["property", "address"]))
              (jstr (getPath (some data) ["property", "city"]))), st')) := by
  constructor
  · intro disk pre post x hu hp hd
    unfold processPhotos
    rw [List.foldl_append, List.foldl_append, List.foldl_cons,
      photoStep_skip hu hp hd]
  · intro cfg oracle disk data st htok hmiss hwf hreach hok hbad
    have hphotos : processPhotos disk (photosArr data) = [] := by
      unfold processPhotos
      have : ∀ (ph : List Json), (∀ x ∈ ph, truthy (jget x "url") = false ∧
          truthy (jget x "path") = true ∧
          assoc disk (jstr (jget x "path")) = none) →
          ∀ acc : List ProcessedPhoto, ph.foldl (photoStep disk) acc = acc := by
        intro ph
        induction ph with
        | nil => intro _ acc; rfl
        | cons y ys ih =>
          intro hall acc
          rw [List.foldl_cons]
          obtain ⟨hu, hp, hd⟩ := hall y (List.mem_cons_self _ _)
          rw [photoStep_skip hu hp hd]
          exact ih (fun z hz => hall z (List.mem_cons_of_mem _ hz)) acc
      exact this _ hbad []
    simp only [handleGenerate, hmiss, hphotos, htok, List.length_nil,
      gt_iff_lt, lt_irrefl, if_false, List.filter_nil, publishPropertySite]
    obtain ⟨c, stF, hmain⟩ :=
      @upload_allOk oracle cfg.branch
        (publishFiles
          (buildSlug (jstr (getPath (some data) ["property", "address"]))
            (jstr (getPath (some data) ["property", "city"])))
          (generatePropertyHTML data []
            (buildSlug (jstr (getPath (some data) ["property", "address"]))
              (jstr (getPath (some data) ["property", "city"])))) [])
        ("Add property site: " ++
          buildSlug (jstr (getPath (some data) ["property", "address"]))
            (jstr (getPath (some data) ["property", "city"]))) st hwf hreach hok
    refine ⟨stF, ?_⟩
    rw [hmain]
    rfl

theorem uploadMultipleFiles_atomic_witness :
    WFSha cexSt0 ∧ (demoFiles.map FileEntry.path).Nodup ∧
    (∃ evs, demoUp.2.trace = cexSt0.trace ++ evs ∧
      evs.filter Event.isUpdateRef = [Event.updateRefEv "main" 5] ∧
      assoc demoUp.2.refs "main" = some 5 ∧
      ∃ old new, branchTree cexSt0 "main" = some old ∧
        branchTree demoUp.2 "main" = some new ∧
        (∀ f ∈ demoFiles, branchFile demoUp.2 "main" f.path = some f.content) ∧
        (∀ p, (∀ f ∈ demoFiles, f.path ≠ p) → assoc new p = assoc old p)) :=
  ⟨by decide, by decide,
    @uploadMultipleFiles_atomic (fun _ => false) "main" demoFiles "m" cexSt0 5
      demoUp.2 (by decide) (by decide) (by decide)⟩

theorem uploadMultipleFiles_protocol_witness :
    WFSha cexSt0 ∧
    (∃ (c1 t1 : Nat) (baseEntries entries : List (String × Nat)) (ts : Nat),
      assoc cexSt0.refs "main" = some c1 ∧
      (∃ co, assoc cexSt0.commits c1 = some co ∧ co.tree = t1) ∧
      assoc cexSt0.trees t1 = some baseEntries ∧
      entries.map Prod.fst = demoFiles.map FileEntry.path ∧
      List.Forall₂ (fun (f : FileEntry) (e : String × Nat) =>
        e.1 = f.path ∧ assoc demoUp.2.blobs e.2 = some f.content)
        demoFiles entries ∧
      assoc demoUp.2.trees ts = some (overlay baseEntries entries) ∧
      assoc demoUp.2.commits 5 = some ⟨ts, [c1], "m"⟩ ∧
      demoUp.2.refs = setEntry cexSt0.refs "main" 5 ∧
      demoUp.2.trace = cexSt0.trace ++
        ([Event.getRefEv "main" c1, Event.getCommitEv c1 t1] ++
          blobEvents demoFiles entries ++
          [Event.createTreeEv t1 entries ts, Event.createCommitEv ts c1 5,
           Event.updateRefEv "main" 5])) :=
  ⟨by decide,
    @uploadMultipleFiles_protocol (fun _ => false) "main" demoFiles "m" cexSt0
      5 demoUp.2 (by decide) (by decide)⟩

theorem publish_overlay_semantics_witness :
    WFSha cexSt0 ∧
    ((publishFiles "s" "h2" []).map FileEntry.path).Nodup ∧
    ((∀ f ∈ publishFiles "s" "h2" [],
        branchFile cexSt2 "main" f.path = some f.content) ∧
      (∀ p, (∀ f ∈ publishFiles "s" "h2" [], f.path ≠ p) →
        branchFile cexSt2 "main" p = branchFile cexSt1 "main" p)) :=
  ⟨by decide, by decide,
    @publish_overlay_semantics (fun _ => false) (fun _ => false) cexCfg "s"
      "h1" "h2" [cexPhoto] [] cexSt0 cexSt1 cexSt2
      "https://owner.github.io/LuminateSPS/properties/s/"
      "https://owner.github.io/LuminateSPS/properties/s/"
      (by decide) (by decide) (by decide) (by decide)⟩

theorem uploadMultipleFiles_failure_policy_witness :
    ((fun i => decide (i = 5)) 5 = true) ∧ 5 ≤ 4 + demoFiles.length ∧
    (∃ st', uploadMultipleFiles (fun i => decide (i = 5)) "main" demoFiles
        "m" cexSt0 = (.error .apiFailure, st') ∧
      st'.refs = cexSt0.refs ∧
      (∃ bs, st'.blobs = bs ++ cexSt0.blobs) ∧
      (∃ trs, st'.trees = trs ++ cexSt0.trees) ∧
      (∃ cms, st'.commits = cms ++ cexSt0.commits) ∧
      (∃ evs, st'.trace = cexSt0.trace ++ evs ∧
        evs.length = expectedCalls 5 demoFiles.length ∧
        (∀ ev ∈ evs, ev.isUpdateRef = false))) :=
  ⟨by decide, by decide,
    uploadMultipleFiles_failure_policy.1 (fun i => decide (i = 5)) 5 "main"
      demoFiles "m" cexSt0 (by decide) (by decide) (by decide)
      (fun i hi => decide_eq_false hi) (by decide)⟩

theorem generate_validation_rejects_witness :
    missingFields genDataNoZip ≠ [] ∧
    (handleGenerate cexCfg (fun _ => false) [] genDataNoZip cexSt0
        = (.validationError "Missing required fields"
            (missingFields genDataNoZip), cexSt0) ∧
      (handleGenerate cexCfg (fun _ => false) [] genDataNoZip cexSt0).2.trace
        = cexSt0.trace ∧
      (∀ f ∈ requiredFields,
        truthy (getPath (some genDataNoZip) (splitPath f '.')) = false
        → f ∈ missingFields genDataNoZip)) :=
  ⟨by decide,
    @generate_validation_rejects cexCfg (fun _ => false) [] genDataNoZip
      cexSt0 (by decide)⟩

theorem listPropertySites_spec_witness :
    cexCfg.token = true ∧
    branchTree cexSt0 "main" = some [] ∧
    (listPropertySites cexCfg cexSt0 = (.ok [], cexSt0) ∧
      handleListProperties cexCfg cexSt0 = (.listOk [], cexSt0)) :=
  ⟨by decide, by decide,
    listPropertySites_spec.1 cexCfg cexSt0 [] (by decide) (by decide)
      (by decide) (by decide)⟩

theorem buildSlug_spec_witness :
    ('1' ∈ (buildSlug "123 Main St." "Springfield").data) ∧
    ('1' = '-' ∨ '1'.isLower = true ∨ '1'.isDigit = true) :=
  ⟨by decide, buildSlug_spec.2 "123 Main St." "Springfield" '1' (by decide)⟩

theorem generate_photo_read_failure_skipped_witness :
    truthy (jget badPhoto "url") = false ∧
    truthy (jget badPhoto "path") = true ∧
    assoc ([] : List (String × String)) (jstr (jget badPhoto "path"))
      = none ∧
    processPhotos ([] : List (String × String)) ([] ++ badPhoto :: [Json.str "x"])
      = processPhotos ([] : List (String × String)) ([] ++ [Json.str "x"]) :=
  ⟨by decide, by decide, by decide,
    generate_photo_read_failure_skipped.1 [] [] [Json.str "x"] badPhoto
      (by decide) (by decide) (by decide)⟩

end Luminate

